import Mathlib

/-! The Whittaker–Eilers smoother of `wte.go`.

A shallow embedding of `createPenaltyMatrix`, `binomialCoefficient`, `powInt` and `Smooth`.

* `float64` values are read as elements of a linearly ordered field `K`
  (`ℚ` for evaluation, `ℝ` for the statements about real vectors).
* A Go slice is a `List`; a `nil` slice argument is `none`, a non-nil one is `some l`.
* A call returns a value with a `nil` error (`Except.ok`), returns a non-nil error
  (`Fault.error`), or panics (`Fault.panic`); a division by zero, which has no real value,
  ends the exact reading (`Fault.notReal`).
* A `*mat.Dense` of shape `r × c` is a `Matrix (Fin r) (Fin c) K`; the shape checks of the
  matrix library are carried by the types, its run-time checks on zero dimensions and on
  indices are carried by `Fault.panic`.
* The linear solve of the matrix library has two readings: `SolveVec`, exact, and
  `SolveVecChecked`, exact with the check of the condition number against `1e16`
  (`Smooth` and `SmoothChecked`). Rounding to `float64` is `round64`; it is used for the
  product of two `float64` (`mul64`, `scale64`).
-/

namespace Wte

/-- The error values of the package: the three `fmt.Errorf` of `createPenaltyMatrix`, the
two failures of the linear solve (a singular system, and a system whose condition number the
matrix library finds too large), and the two wrappers made by `Smooth`. -/
inductive Error where
  | orderTooSmall
  | spacingLength
  | dataTooShort
  | singular
  | nearSingular
  | penaltyMatrix (cause : Error)
  | solveSystem (cause : Error)
  deriving DecidableEq

/-- The text of an error, as printed by `err.Error()`; for `nearSingular` the matrix library
prints the condition number itself where this text says `above 1e+16`. -/
def Error.message : Error → String
  | .orderTooSmall => "order must be at least 1"
  | .spacingLength => "spacing slice must be the same length as data slice"
  | .dataTooShort => "data slice must be at least as long as order"
  | .singular => "matrix singular or near-singular with condition number +Inf"
  | .nearSingular => "matrix singular or near-singular with condition number above 1e+16"
  | .penaltyMatrix cause => "failed to create penalty matrix: " ++ cause.message
  | .solveSystem cause => "failed to solve the system: " ++ cause.message

/-- Run-time panics: the matrix library rejects zero dimensions (`ErrZeroLength`), rows and
columns out of range (`ErrRowAccess`, `ErrColAccess`), vector indices out of range and
lengths that do not fit (`ErrShape`); Go rejects a slice index out of range; a recursion
that never reaches its base case exhausts the stack. -/
inductive Panic where
  | zeroLength
  | rowAccess
  | colAccess
  | vectorAccess
  | shape
  | indexOutOfRange
  | stackExhausted
  deriving DecidableEq

/-- Every way a call can end other than by returning a value and a `nil` error: a non-nil
error, a panic, or a `float64` operation whose result is no real number (a division by zero
gives `±Inf` or `NaN`), where the exact reading of `float64` stops. -/
inductive Fault where
  | error (e : Error)
  | panic (p : Panic)
  | notReal
  deriving DecidableEq

variable {K : Type} [LinearOrderedField K]

/-- A dense `r × c` matrix (`*mat.Dense`). -/
abbrev Dense (K : Type) (r c : Nat) := Matrix (Fin r) (Fin c) K

/-- The call `mat.NewDense(r, c, nil)`: a zero matrix. The matrix library documents that `NewDense`
panics if either `r` or `c` is zero (`ErrZeroLength`, "mat: zero length in matrix
dimension"). -/
def NewDense (r c : Nat) : Except Fault (Dense K r c) :=
  if r = 0 ∨ c = 0 then .error (.panic .zeroLength) else .ok (fun _ _ => 0)

/-- The call `D.Set(i, j, v)`: panics when the row or the column is out of range. -/
def Dense.Set {r c : Nat} (D : Dense K r c) (i j : Nat) (v : K) : Except Fault (Dense K r c) :=
  if i < r then
    if j < c then .ok (fun a b => if a.val = i ∧ b.val = j then v else D a b)
    else .error (.panic .colAccess)
  else .error (.panic .rowAccess)

/-- Slice indexing `s[i]`: panics when the index is out of range. -/
def index (s : List K) (i : Nat) : Except Fault K :=
  match s[i]? with
  | some v => .ok v
  | none => .error (.panic .indexOutOfRange)

/-- The function `binomialCoefficient(n, k)`: `1` when `k == 0 || k == n`, else the sum of
the two recursive calls. For `k > n` the recursion of the source never reaches a base case.
The only call passes the order `d ≥ 1` and the loop counter `j ≥ 0`, so both arguments are
natural numbers. -/
def binomialCoefficient : Nat → Nat → Except Fault K
  | _, 0 => .ok 1
  | 0, _ + 1 => .error (.panic .stackExhausted)
  | n + 1, k + 1 =>
    if k + 1 = n + 1 then .ok 1
    else do
      let a ← binomialCoefficient n k
      let b ← binomialCoefficient n (k + 1)
      pure (a + b)

/-- The function `powInt(base, exp)`: multiplies `result` by `base`, `exp` times, starting
from `1`. The only call passes the loop counter `j ≥ 0` as `exp` and `-1` as `base`, so the
result is `1` or `-1` and never overflows. -/
def powInt (base : Int) (exp : Nat) : Int :=
  (List.range exp).foldl (fun result _ => result * base) 1

/-- The quotient `a / b` of two `float64` read as reals: it has no real value when `b` is
zero. -/
def quotient (a b : K) : Except Fault K :=
  if b = 0 then .error .notReal else .ok (a / b)

/-- The value written to cell `(i, i+j)`: the signed binomial coefficient, multiplied by
`spacing[i+j-1] / spacing[i+j]` when `j > 0 && j < d`. -/
def penalty (spacing : List K) (d i j : Nat) : Except Fault K := do
  let b ← binomialCoefficient d j
  let p := b * ((powInt (-1) j : Int) : K)
  if 0 < j ∧ j < d then
    let s0 ← index spacing (i + j - 1)
    let s1 ← index spacing (i + j)
    let q ← quotient s0 s1
    pure (p * q)
  else
    pure p

/-- The body of the inner loop at `(i, j)`. -/
def fillCell {r c : Nat} (spacing : List K) (n d i : Nat) (D : Dense K r c) (j : Nat) :
    Except Fault (Dense K r c) :=
  if i + j < n then do
    let p ← penalty spacing d i j
    D.Set i (i + j) p
  else pure D

/-- The inner loop `for j := 0; j <= d; j++`. -/
def fillRow {r c : Nat} (spacing : List K) (n d : Nat) (D : Dense K r c) (i : Nat) :
    Except Fault (Dense K r c) :=
  (List.range (d + 1)).foldlM (fillCell spacing n d i) D

/-- The outer loop `for i := 0; i < n-d; i++`. -/
def fillRows {r c : Nat} (spacing : List K) (n d : Nat) (D : Dense K r c) :
    Except Fault (Dense K r c) :=
  (List.range (n - d)).foldlM (fillRow spacing n d) D

/-- The function `createPenaltyMatrix(data, spacing, d)`: the three checks in the order of
the source, then the allocation of the `(n-d) × n` matrix and the fill loop. -/
def createPenaltyMatrix (data spacing : List K) (d : Int) :
    Except Fault (Dense K (data.length - d.toNat) data.length) :=
  if d < 1 then .error (.error .orderTooSmall)
  else if spacing.length ≠ data.length then .error (.error .spacingLength)
  else if (data.length : Int) < d then .error (.error .dataTooShort)
  else do
    let D ← NewDense (data.length - d.toNat) data.length
    fillRows spacing data.length d.toNat D

/-- A diagonal matrix (`*mat.DiagDense`), kept as its diagonal. -/
abbrev DiagDense (K : Type) (n : Nat) := Fin n → K

/-- The call `mat.NewDiagDense(n, nil)`: a zero diagonal; the library panics when `n` is
zero. -/
def NewDiagDense (n : Nat) : Except Fault (DiagDense K n) :=
  if n = 0 then .error (.panic .zeroLength) else .ok (fun _ => 0)

/-- The call `I.SetDiag(i, v)`: panics when `i` is out of range. -/
def DiagDense.SetDiag {n : Nat} (I : DiagDense K n) (i : Nat) (v : K) :
    Except Fault (DiagDense K n) :=
  if i < n then .ok (fun a => if a.val = i then v else I a)
  else .error (.panic .rowAccess)

/-- The identity of `Smooth`: a fresh diagonal matrix and the loop
`for i := 0; i < n; i++ { I.SetDiag(i, 1) }`. -/
def identityMatrix (n : Nat) : Except Fault (DiagDense K n) := do
  let I ← NewDiagDense n
  (List.range n).foldlM (fun I i => I.SetDiag i 1) I

/-- The call `m.Product(a, b)` for two factors: the matrix product. -/
def Product {r k c : Nat} (a : Dense K r k) (b : Dense K k c) : Dense K r c :=
  fun i j => ∑ l : Fin k, a i l * b l j

/-- The call `d.T()`: the transpose. -/
def Dense.T {r c : Nat} (D : Dense K r c) : Dense K c r :=
  fun i j => D j i

/-- The call `m.Scale(f, a)`: every entry multiplied by `f`. -/
def Scale {r c : Nat} (f : K) (a : Dense K r c) : Dense K r c :=
  fun i j => f * a i j

/-- The call `m.Add(a, b)` with `a` diagonal: the entrywise sum. -/
def Add {n : Nat} (a : DiagDense K n) (b : Dense K n n) : Dense K n n :=
  fun i j => (if i = j then a i else 0) + b i j

/-- The call `mat.NewVecDense(n, data)`: the library panics when `n` is zero and when the
length of `data` is not `n`. -/
def NewVecDense (n : Nat) (data : List K) : Except Fault (Fin n → K) :=
  if n = 0 then .error (.panic .zeroLength)
  else if h : data.length = n then .ok (fun i => data.get (i.cast h.symm))
  else .error (.panic .shape)

/-- Modelled from the spec: the dense linear solve `x.SolveVec(a, b)` of the matrix library,
which is not part of the repository ("solve `SystemMatrix · x = data` for `x` using a general
dense linear solve (e.g., LU-based); if the solve fails (singular or numerically degenerate
system), surface a solve-failure error"), in the exact reading of `float64`: no rounding, so
the only degenerate system is the singular one. The solve fails exactly when the determinant
of `a` is zero, and otherwise yields the solution, computed here by Cramer's rule. The check
that the library makes on the condition number is in `SolveVecChecked`. -/
def SolveVec {n : Nat} (a : Dense K n n) (b : Fin n → K) : Except Fault (Fin n → K) :=
  if a.det = 0 then .error (.error .singular)
  else .ok (fun i => (a.det)⁻¹ * (a.adjugate.mulVec b) i)

/-- The call `x.AtVec(i)`: panics when `i` is out of range. -/
def AtVec {n : Nat} (x : Fin n → K) (i : Nat) : Except Fault K :=
  if h : i < n then .ok (x ⟨i, h⟩) else .error (.panic .vectorAccess)

/-- The slice assignment `s[i] = v`: panics when the index is out of range. -/
def setIndex (s : List K) (i : Nat) (v : K) : Except Fault (List K) :=
  if i < s.length then .ok (s.set i v) else .error (.panic .indexOutOfRange)

/-- The end of `Smooth`: `smoothedData := make([]float64, n)` and the loop
`for i := 0; i < n; i++ { smoothedData[i] = x.AtVec(i) }`. -/
def extract {n : Nat} (x : Fin n → K) : Except Fault (List K) :=
  (List.range n).foldlM (fun s i => do
    let v ← AtVec x i
    setIndex s i v) (List.replicate n 0)

/-- The spacing slice that `Smooth` hands to `createPenaltyMatrix`: `n` ones when the
argument is `nil`, the argument itself otherwise. -/
def effectiveSpacing (n : Nat) (spacing : Option (List K)) : List K :=
  match spacing with
  | none => List.replicate n 1
  | some s => s

/-- The assembly of `I + lambda * D'D` in `Smooth`: the identity, the two `n × n`
allocations, `Product`, `Scale` and `Add`. -/
def systemMatrix {r : Nat} (n : Nat) (lambda : K) (d : Dense K r n) :
    Except Fault (Dense K n n) := do
  let I ← identityMatrix n
  let _ ← (NewDense n n : Except Fault (Dense K n n))
  let DtD := Product d.T d
  let _ ← (NewDense n n : Except Fault (Dense K n n))
  let scaled := Scale lambda DtD
  pure (Add I scaled)

/-- The function `Smooth(data, lambda, order, spacing)`: default spacing, penalty matrix
(its error wrapped), system matrix, solve (its error wrapped), and the copy of the
solution. -/
def Smooth (data : List K) (lambda : K) (order : Int) (spacing : Option (List K)) :
    Except Fault (List K) :=
  match createPenaltyMatrix data (effectiveSpacing data.length spacing) order with
  | .error (.error err) => .error (.error (.penaltyMatrix err))
  | .error fault => .error fault
  | .ok d => do
    let a ← systemMatrix data.length lambda d
    let y ← NewVecDense data.length data
    match SolveVec a y with
    | .error (.error err) => .error (.error (.solveSystem err))
    | .error fault => .error fault
    | .ok x => extract x

/-- The constant `ConditionTolerance` of the matrix library, `1e16`: a solve reports a
system with a larger condition number as near-singular. -/
def ConditionTolerance : K := 10 ^ 16

/-- The maximum absolute row sum of a square matrix, the norm in which the matrix library
measures the condition number of a system. -/
def rowSumNorm {n : Nat} (a : Dense K n n) : K :=
  ((List.finRange n).map (fun i => ∑ j : Fin n, |a i j|)).foldr max 0

/-- The condition number of a regular matrix in the row-sum norm: the norm of the matrix
times the norm of its inverse. -/
def conditionNumber {n : Nat} (a : Dense K n n) : K :=
  rowSumNorm a * rowSumNorm ((a.det)⁻¹ • a.adjugate)

/-- Modelled from the spec: the solve `x.SolveVec(a, b)` with both failures that the spec
names ("if the solve fails (singular or numerically degenerate system), surface a
solve-failure error"). The matrix library reports a zero determinant first, then solves, and
reports the system as near-singular when its condition number exceeds `ConditionTolerance`.
The library works with an estimate of the condition number (a lower bound of it); here it is
the number itself, and the numbers are exact (no rounding). -/
def SolveVecChecked {n : Nat} (a : Dense K n n) (b : Fin n → K) : Except Fault (Fin n → K) :=
  if a.det = 0 then .error (.error .singular)
  else if ConditionTolerance < conditionNumber a then .error (.error .nearSingular)
  else .ok (fun i => (a.det)⁻¹ * (a.adjugate.mulVec b) i)

/-- The function `Smooth(data, lambda, order, spacing)` as `Smooth` above, with the solve
that also checks the condition number (`SolveVecChecked`). -/
def SmoothChecked (data : List K) (lambda : K) (order : Int) (spacing : Option (List K)) :
    Except Fault (List K) :=
  match createPenaltyMatrix data (effectiveSpacing data.length spacing) order with
  | .error (.error err) => .error (.error (.penaltyMatrix err))
  | .error fault => .error fault
  | .ok d => do
    let a ← systemMatrix data.length lambda d
    let y ← NewVecDense data.length data
    match SolveVecChecked a y with
    | .error (.error err) => .error (.error (.solveSystem err))
    | .error fault => .error fault
    | .ok x => extract x

/-- Rounding of a rational to the nearest integer, ties to the even one. -/
def roundHalfEven (y : ℚ) : Int :=
  if y - ⌊y⌋ < 1 / 2 then ⌊y⌋
  else if 1 / 2 < y - ⌊y⌋ then ⌊y⌋ + 1
  else if ⌊y⌋ % 2 = 0 then ⌊y⌋
  else ⌊y⌋ + 1

/-- The `float64` nearest to a rational `x` (IEEE 754 binary64: 53 significant bits, least
exponent `-1022`, round to nearest, ties to even). A result of magnitude `2^1024` or more
is an infinity, where the exact reading stops. -/
def round64 (x : ℚ) : Except Fault ℚ :=
  if x = 0 then .ok 0
  else if (2 : ℚ) ^ 1024 ≤ |(roundHalfEven (x / 2 ^ (max (Int.log 2 |x|) (-1022) - 52)) : ℚ)
      * 2 ^ (max (Int.log 2 |x|) (-1022) - 52)| then .error .notReal
  else .ok ((roundHalfEven (x / 2 ^ (max (Int.log 2 |x|) (-1022) - 52)) : ℚ)
      * 2 ^ (max (Int.log 2 |x|) (-1022) - 52))

/-- The `float64` product `a * b` of two `float64` values: the exact product, rounded. -/
def mul64 (a b : ℚ) : Except Fault ℚ :=
  round64 (a * b)

/-- A spacing slice multiplied entry by entry by the constant `c`, in `float64`. -/
def scale64 (c : ℚ) (s : List ℚ) : Except Fault (List ℚ) :=
  s.mapM (mul64 c)

/-- The helper `within(a, b, perc)` of the test file: whether `a` and `b` are equal, or
their difference relative to their average, in percent, is at most `perc`. -/
def within (a b perc : K) : Bool :=
  if a = b then true
  else
    let average := (a + b) / 2
    if average = 0 then false
    else decide (|a - b| / average * 100 ≤ perc)

/-! ## Vocabulary of the statements -/

/-- The slice `l` read as a vector of length `n` (entry `i` is `l[i]`). -/
def toVec (n : Nat) (l : List K) : Fin n → K :=
  fun i => l.getD i.val 0

/-- A spacing argument that the contract of `Smooth` allows for data of length `n`: absent,
or of length `n` with positive entries. -/
def ValidSpacing (n : Nat) (spacing : Option (List K)) : Prop :=
  match spacing with
  | none => True
  | some s => s.length = n ∧ ∀ v ∈ s, 0 < v

/-- The roughness `|D * x|^2` of a vector. -/
def roughness {r n : Nat} (D : Dense K r n) (x : Fin n → K) : K :=
  ∑ i : Fin r, (D.mulVec x i) ^ 2

/-- The penalised least-squares objective
`Q(z) = sum_i (y[i] - z[i])^2 + lambda * |D * z|^2`. -/
def objective {r n : Nat} (D : Dense K r n) (lambda : K) (y z : Fin n → K) : K :=
  ∑ i : Fin n, (y i - z i) ^ 2 + lambda * roughness D z

/-- A run that neither panics nor returns an error value: it returns a value, or it stops
at a division by zero. -/
def Safe {α : Type} (r : Except Fault α) : Prop :=
  (∃ v, r = .ok v) ∨ r = .error .notReal

/-- The value of the cell `(i, i+j)` of the penalty matrix in closed form. -/
def penaltyValue (spacing : List K) (d i j : Nat) : K :=
  if 0 < j ∧ j < d then
    (d.choose j : K) * (-1) ^ j * (spacing.getD (i + j - 1) 0 / spacing.getD (i + j) 0)
  else (d.choose j : K) * (-1) ^ j

/-- The penalty matrix in closed form: the band `i ≤ k ≤ i + d` of row `i` holds the
penalty values, every other cell is zero. -/
def bandMatrix (spacing : List K) (r n d : Nat) : Dense K r n :=
  fun i k =>
    if i.val ≤ k.val ∧ k.val ≤ i.val + d then penaltyValue spacing d i.val (k.val - i.val)
    else 0

/-- The forward first difference `(Δ f)[i] = f[i+1] - f[i]` of a sequence. -/
def forwardDifference (f : Nat → K) : Nat → K :=
  fun i => f (i + 1) - f i

/-- The `d`-th difference: `Δ` applied `d` times. -/
def differences : Nat → (Nat → K) → Nat → K
  | 0, f => f
  | d + 1, f => forwardDifference (differences d f)

/-! ## Sample inputs -/

/-- The ten data points of `TestSmooth`. -/
def testData : List ℚ :=
  [11 / 10, 19 / 10, 31 / 10, 391 / 100, 5, 301 / 50, 701 / 100, 77 / 10, 9, 10]

/-- Four data points used to instantiate the statements. -/
def sampleData : List ℚ := [1, 3, 2, 6]

/-- A non-uniform spacing for `sampleData`. -/
def sampleSpacing : List ℚ := [1, 2, 1, 3]

/-- The penalty matrix of order 2 for `sampleData` and `sampleSpacing`. -/
def sampleMatrix : Dense ℚ 2 4 := bandMatrix sampleSpacing 2 4 2

/-- The system matrix for `sampleMatrix` and `lambda = 20`. -/
def sampleSystem : Dense ℚ 4 4 := 1 + (20 : ℚ) • (sampleMatrix.transpose * sampleMatrix)

/-- The values that `TestSmooth` wants for `lambda = 200`, `order = 3` and no spacing. -/
def testWant : List ℚ :=
  [1.0583913481986855, 2.025523751412608, 2.997874061833645, 3.9752342362027893,
   4.957607763500082, 5.945118610751834, 6.938246340018855, 7.9378492642022005,
   8.944813195902658, 9.959341427980325]

/-- The exact solution of the system for `testData`, `lambda = 200` and `order = 3`. -/
def testOutput : List ℚ :=
  [1780236195374222789159 / 1682020736851327408890,
   10220918858581996982033 / 5046062210553982226670,
   15127459015417408328857 / 5046062210553982226670,
   66864264191338229491799 / 16820207368513274088900,
   92653322926461203743 / 18689119298348082321,
   5555451547958040228521 / 934455964917404116050,
   116702742212936235930989 / 16820207368513274088900,
   40054881205161759725179 / 5046062210553982226670,
   4513608384830656316027 / 504606221055398222667,
   1675181880724476955088 / 168202073685132740889]

/-! ## Running the loops -/

section Loops

variable {K : Type} [LinearOrderedField K]

@[simp] theorem bind_ok_eq {α β : Type} (a : α) (f : α → Except Fault β) :
    (Except.ok a >>= f) = f a := rfl

@[simp] theorem bind_error_eq {α β : Type} (e : Fault) (f : α → Except Fault β) :
    ((Except.error e : Except Fault α) >>= f) = Except.error e := rfl

@[simp] theorem pure_eq_ok {α : Type} (a : α) : (pure a : Except Fault α) = Except.ok a := rfl

/-- A loop `for k := 0; k < m; k++` whose body keeps an invariant runs to its end. -/
theorem foldlM_range_invariant {β : Type} (f : β → Nat → Except Fault β)
    (P : Nat → β → Prop) (m : Nat) (b0 : β) (h0 : P 0 b0)
    (hstep : ∀ k, k < m → ∀ b, P k b → ∃ b', f b k = .ok b' ∧ P (k + 1) b') :
    ∃ b, (List.range m).foldlM f b0 = .ok b ∧ P m b := by
  induction m with
  | zero => exact ⟨b0, rfl, h0⟩
  | succ m ih =>
    obtain ⟨b, hb, hP⟩ := ih (fun k hk => hstep k (Nat.lt_succ_of_lt hk))
    obtain ⟨b', hb', hP'⟩ := hstep m (Nat.lt_succ_self m) b hP
    refine ⟨b', ?_, hP'⟩
    rw [List.range_succ, List.foldlM_append, hb]
    simp [hb']

theorem powInt_eq (base : Int) (exp : Nat) : powInt base exp = base ^ exp := by
  unfold powInt
  induction exp with
  | zero => simp
  | succ e ih => rw [List.range_succ, List.foldl_append, ih]; simp [pow_succ]

theorem binomialCoefficient_eq (n k : Nat) (h : k ≤ n) :
    (binomialCoefficient n k : Except Fault K) = .ok (n.choose k : K) := by
  induction n generalizing k with
  | zero =>
    obtain rfl : k = 0 := Nat.le_zero.mp h
    simp [binomialCoefficient]
  | succ n ih =>
    cases k with
    | zero => simp [binomialCoefficient]
    | succ k =>
      by_cases hk : k = n
      · subst hk
        simp [binomialCoefficient]
      · have h1 : k ≤ n := Nat.le_of_succ_le_succ h
        have h2 : k + 1 ≤ n := by omega
        simp [binomialCoefficient, hk, ih k h1, ih (k + 1) h2, Nat.choose_succ_succ]

theorem index_eq (s : List K) (i : Nat) (h : i < s.length) :
    index s i = .ok (s.getD i 0) := by
  simp [index, List.getD, List.getElem?_eq_getElem h]

theorem penalty_eq (spacing : List K) (d i j : Nat) (hj : j ≤ d)
    (hlen : i + d ≤ spacing.length) (hnz : ∀ v ∈ spacing, v ≠ 0) :
    penalty spacing d i j = .ok (penaltyValue spacing d i j) := by
  unfold penalty penaltyValue
  rw [binomialCoefficient_eq d j hj]
  by_cases hm : 0 < j ∧ j < d
  · have h0 : i + j - 1 < spacing.length := by omega
    have h1 : i + j < spacing.length := by omega
    have hne : spacing.getD (i + j) 0 ≠ 0 := by
      apply hnz
      rw [List.getD_eq_getElem _ _ h1]
      exact List.getElem_mem _
    have hq : quotient (spacing.getD (i + j - 1) 0) (spacing.getD (i + j) 0)
        = .ok (spacing.getD (i + j - 1) 0 / spacing.getD (i + j) 0) := by
      unfold quotient
      rw [if_neg hne]
    simp only [bind_ok_eq, if_pos hm, index_eq _ _ h0, index_eq _ _ h1, hq, pure_eq_ok,
      powInt_eq]
    push_cast
    rfl
  · simp only [bind_ok_eq, if_neg hm, pure_eq_ok, powInt_eq]
    push_cast
    rfl

end Loops

section Fill

variable {K : Type} [LinearOrderedField K]

theorem fillRow_eq {r n : Nat} (spacing : List K) (d : Nat) (D : Dense K r n) (i : Nat)
    (hi : i < r) (hid : i + d < n) (hlen : i + d ≤ spacing.length)
    (hnz : ∀ v ∈ spacing, v ≠ 0) :
    fillRow spacing n d D i = .ok (fun a b =>
      if a.val = i ∧ i ≤ b.val ∧ b.val ≤ i + d then penaltyValue spacing d i (b.val - i)
      else D a b) := by
  obtain ⟨D', hD', hP⟩ := foldlM_range_invariant (fillCell spacing n d i)
    (fun m (E : Dense K r n) => E = fun a b =>
      if a.val = i ∧ i ≤ b.val ∧ b.val < i + m then penaltyValue spacing d i (b.val - i)
      else D a b) (d + 1) D
    (by
      funext a b
      have : ¬ (a.val = i ∧ i ≤ b.val ∧ b.val < i + 0) := by omega
      rw [if_neg this])
    (by
      intro k hk E hE
      have hkn : i + k < n := by omega
      refine ⟨_, ?_, rfl⟩
      unfold fillCell
      rw [if_pos hkn, penalty_eq spacing d i k (by omega) hlen hnz]
      simp only [bind_ok_eq, Dense.Set, if_pos hi, if_pos hkn]
      congr 1
      funext a b
      subst hE
      by_cases h1 : a.val = i ∧ b.val = i + k
      · have h2 : a.val = i ∧ i ≤ b.val ∧ b.val < i + (k + 1) := by omega
        rw [if_pos h1, if_pos h2]
        congr 1
        omega
      · rw [if_neg h1]
        dsimp only
        by_cases h3 : a.val = i ∧ i ≤ b.val ∧ b.val < i + k
        · have h2 : a.val = i ∧ i ≤ b.val ∧ b.val < i + (k + 1) := by omega
          rw [if_pos h3, if_pos h2]
        · have h2 : ¬ (a.val = i ∧ i ≤ b.val ∧ b.val < i + (k + 1)) := by omega
          rw [if_neg h3, if_neg h2])
  unfold fillRow
  rw [hD', hP]
  congr 1
  funext a b
  have : (a.val = i ∧ i ≤ b.val ∧ b.val < i + (d + 1)) ↔
      (a.val = i ∧ i ≤ b.val ∧ b.val ≤ i + d) := by
    omega
  simp only [this]

theorem fillRows_eq {r n : Nat} (spacing : List K) (d : Nat) (D : Dense K r n)
    (hr : r = n - d) (hlen : n ≤ spacing.length) (hnz : ∀ v ∈ spacing, v ≠ 0) :
    fillRows spacing n d D = .ok (fun a b =>
      if a.val ≤ b.val ∧ b.val ≤ a.val + d then penaltyValue spacing d a.val (b.val - a.val)
      else D a b) := by
  obtain ⟨D', hD', hP⟩ := foldlM_range_invariant (fillRow spacing n d)
    (fun m (E : Dense K r n) => E = fun a b =>
      if a.val < m ∧ a.val ≤ b.val ∧ b.val ≤ a.val + d then
        penaltyValue spacing d a.val (b.val - a.val)
      else D a b) (n - d) D
    (by
      funext a b
      have : ¬ (a.val < 0 ∧ a.val ≤ b.val ∧ b.val ≤ a.val + d) := by omega
      rw [if_neg this])
    (by
      intro k hk E hE
      refine ⟨_, fillRow_eq spacing d E k (by omega) (by omega) (by omega) hnz, ?_⟩
      funext a b
      subst hE
      by_cases h1 : a.val = k ∧ k ≤ b.val ∧ b.val ≤ k + d
      · have h2 : a.val < k + 1 ∧ a.val ≤ b.val ∧ b.val ≤ a.val + d := by omega
        rw [if_pos h1, if_pos h2, h1.1]
      · rw [if_neg h1]
        dsimp only
        by_cases h3 : a.val < k ∧ a.val ≤ b.val ∧ b.val ≤ a.val + d
        · have h2 : a.val < k + 1 ∧ a.val ≤ b.val ∧ b.val ≤ a.val + d := by omega
          rw [if_pos h3, if_pos h2]
        · have h2 : ¬ (a.val < k + 1 ∧ a.val ≤ b.val ∧ b.val ≤ a.val + d) := by omega
          rw [if_neg h3, if_neg h2])
  unfold fillRows
  rw [hD', hP]
  congr 1
  funext a b
  have ha : a.val < n - d := hr ▸ a.isLt
  by_cases h1 : a.val ≤ b.val ∧ b.val ≤ a.val + d
  · rw [if_pos h1, if_pos ⟨ha, h1⟩]
  · have h2 : ¬ (a.val < n - d ∧ a.val ≤ b.val ∧ b.val ≤ a.val + d) := fun h => h1 h.2
    rw [if_neg h1, if_neg h2]

/-- On an input that passes the three checks with `d < n` and a spacing without zero entry,
`createPenaltyMatrix` returns the band matrix. -/
theorem createPenaltyMatrix_eq (data spacing : List K) (d : Int) (h1 : 1 ≤ d)
    (h2 : d < data.length) (hs : spacing.length = data.length)
    (hnz : ∀ v ∈ spacing, v ≠ 0) :
    createPenaltyMatrix data spacing d
      = .ok (bandMatrix spacing (data.length - d.toNat) data.length d.toNat) := by
  have hd : ¬ d < 1 := not_lt.mpr h1
  have hn : ¬ ((data.length : Int) < d) := by omega
  have hr : ¬ (data.length - d.toNat = 0 ∨ data.length = 0) := by omega
  unfold createPenaltyMatrix
  rw [if_neg hd, if_neg (not_not.mpr hs), if_neg hn]
  unfold NewDense
  rw [if_neg hr]
  simp only [bind_ok_eq]
  rw [fillRows_eq spacing d.toNat _ rfl (le_of_eq hs.symm) hnz]
  rfl

end Fill

section Assembly

variable {K : Type} [LinearOrderedField K]

theorem identityMatrix_eq (n : Nat) (hn : n ≠ 0) :
    (identityMatrix n : Except Fault (DiagDense K n)) = .ok (fun _ => 1) := by
  obtain ⟨I, hI, hP⟩ := foldlM_range_invariant
    (fun (I : DiagDense K n) i => I.SetDiag i 1)
    (fun m (J : DiagDense K n) => J = fun a => if a.val < m then 1 else 0) n (fun _ => 0)
    (by funext a; simp)
    (by
      intro k hk J hJ
      refine ⟨_, ?_, rfl⟩
      simp only [DiagDense.SetDiag, if_pos hk]
      congr 1
      funext a
      subst hJ
      by_cases h1 : a.val = k
      · have h2 : a.val < k + 1 := by omega
        rw [if_pos h1, if_pos h2]
      · rw [if_neg h1]
        dsimp only
        by_cases h3 : a.val < k
        · have h2 : a.val < k + 1 := by omega
          rw [if_pos h3, if_pos h2]
        · have h2 : ¬ a.val < k + 1 := by omega
          rw [if_neg h3, if_neg h2])
  unfold identityMatrix NewDiagDense
  rw [if_neg hn]
  simp only [bind_ok_eq]
  rw [hI, hP]
  congr 1
  funext a
  rw [if_pos a.isLt]

theorem systemMatrix_eq {r : Nat} (n : Nat) (hn : n ≠ 0) (lam : K) (D : Dense K r n) :
    systemMatrix n lam D = .ok (1 + lam • (D.transpose * D)) := by
  have h0 : ¬ (n = 0 ∨ n = 0) := by omega
  unfold systemMatrix
  rw [identityMatrix_eq n hn]
  unfold NewDense
  simp only [bind_ok_eq, if_neg h0, pure_eq_ok]
  have hA : Add (fun _ => 1) (Scale lam (Product D.T D)) = 1 + lam • (D.transpose * D) := by
    funext i j
    simp [Add, Scale, Product, Dense.T, Matrix.mul_apply, Matrix.one_apply]
  rw [hA]

theorem NewVecDense_eq (data : List K) (hn : data.length ≠ 0) :
    NewVecDense data.length data = .ok (toVec data.length data) := by
  unfold NewVecDense
  rw [if_neg hn, dif_pos rfl]
  congr 1
  funext i
  simp [toVec, List.getD_eq_getElem _ _ i.isLt]

theorem extract_eq {n : Nat} (x : Fin n → K) : extract x = .ok (List.ofFn x) := by
  obtain ⟨s, hs, hlen, hP⟩ := foldlM_range_invariant
    (fun (s : List K) i => do
      let v ← AtVec x i
      setIndex s i v)
    (fun m (s : List K) => s.length = n ∧ ∀ k (h : k < n), k < m → s.getD k 0 = x ⟨k, h⟩)
    n (List.replicate n 0)
    ⟨by simp, by intro k _ hk; omega⟩
    (by
      intro k hk s hs
      obtain ⟨hlen, hval⟩ := hs
      have hks : k < s.length := by omega
      refine ⟨s.set k (x ⟨k, hk⟩), ?_, by simp [hlen], ?_⟩
      · simp only [AtVec, dif_pos hk, bind_ok_eq, setIndex, if_pos hks]
      · intro l hl hlk
        have hls : l < (s.set k (x ⟨k, hk⟩)).length := by simp [hlen, hl]
        rw [List.getD_eq_getElem _ _ hls, List.getElem_set]
        by_cases h1 : k = l
        · subst h1
          rw [if_pos rfl]
        · rw [if_neg h1, ← hval l hl (by omega), List.getD_eq_getElem _ _ (by omega)])
  unfold extract
  rw [hs]
  congr 1
  apply List.ext_getElem
  · simp [hlen]
  · intro i h1 h2
    have hi : i < n := by omega
    rw [← List.getD_eq_getElem s 0 h1, hP i hi hi]
    simp

theorem toVec_ofFn {n : Nat} (x : Fin n → K) : toVec n (List.ofFn x) = x := by
  funext i
  have h : i.val < (List.ofFn x).length := by simp
  simp [toVec, List.getD_eq_getElem _ _ h]

end Assembly

section Solve

variable {K : Type} [LinearOrderedField K] {r n : Nat}

open Matrix

theorem SolveVec_singular (a : Dense K n n) (b : Fin n → K) (h : a.det = 0) :
    SolveVec a b = .error (.error .singular) := by
  unfold SolveVec
  rw [if_pos h]

theorem SolveVec_regular (a : Dense K n n) (b : Fin n → K) (h : a.det ≠ 0) :
    SolveVec a b = .ok ((a.det)⁻¹ • a.adjugate.mulVec b) := by
  unfold SolveVec
  rw [if_neg h]
  rfl

theorem mulVec_cramer (a : Dense K n n) (b : Fin n → K) (h : a.det ≠ 0) :
    a.mulVec ((a.det)⁻¹ • a.adjugate.mulVec b) = b := by
  rw [Matrix.mulVec_smul, Matrix.mulVec_mulVec, Matrix.mul_adjugate, Matrix.smul_mulVec_assoc,
    Matrix.one_mulVec, smul_smul, inv_mul_cancel₀ h, one_smul]

theorem eq_cramer_of_mulVec (a : Dense K n n) (b z : Fin n → K) (h : a.det ≠ 0)
    (hz : a.mulVec z = b) : z = (a.det)⁻¹ • a.adjugate.mulVec b := by
  subst hz
  rw [Matrix.mulVec_mulVec, Matrix.adjugate_mul, Matrix.smul_mulVec_assoc,
    Matrix.one_mulVec, smul_smul, inv_mul_cancel₀ h, one_smul]

theorem roughness_eq_dotProduct (D : Dense K r n) (x : Fin n → K) :
    roughness D x = Matrix.dotProduct (D.mulVec x) (D.mulVec x) := by
  simp [roughness, Matrix.dotProduct, pow_two]

theorem dotProduct_self_nonneg_aux {m : Nat} (v : Fin m → K) : 0 ≤ Matrix.dotProduct v v :=
  Finset.sum_nonneg (fun i _ => mul_self_nonneg (v i))

theorem roughness_nonneg (D : Dense K r n) (x : Fin n → K) : 0 ≤ roughness D x := by
  rw [roughness_eq_dotProduct]
  exact dotProduct_self_nonneg_aux _

/-- The system matrix applied to a vector. -/
theorem system_mulVec (D : Dense K r n) (lam : K) (x : Fin n → K) :
    (1 + lam • (D.transpose * D)).mulVec x
      = x + lam • D.transpose.mulVec (D.mulVec x) := by
  rw [Matrix.add_mulVec, Matrix.one_mulVec, Matrix.smul_mulVec_assoc, Matrix.mulVec_mulVec]

theorem dotProduct_transpose_mulVec (D : Dense K r n) (u : Fin n → K) (w : Fin r → K) :
    Matrix.dotProduct u (D.transpose.mulVec w) = Matrix.dotProduct (D.mulVec u) w := by
  rw [Matrix.dotProduct_mulVec, Matrix.vecMul_transpose]

/-- The quadratic form of the system matrix. -/
theorem system_quadratic (D : Dense K r n) (lam : K) (x : Fin n → K) :
    Matrix.dotProduct x ((1 + lam • (D.transpose * D)).mulVec x)
      = Matrix.dotProduct x x + lam * roughness D x := by
  rw [system_mulVec, Matrix.dotProduct_add, Matrix.dotProduct_smul,
    dotProduct_transpose_mulVec, roughness_eq_dotProduct, smul_eq_mul]

theorem system_symmetric (D : Dense K r n) (lam : K) :
    (1 + lam • (D.transpose * D)).transpose = 1 + lam • (D.transpose * D) := by
  rw [Matrix.transpose_add, Matrix.transpose_one, Matrix.transpose_smul, Matrix.transpose_mul,
    Matrix.transpose_transpose]

theorem system_posDef (D : Dense K r n) (lam : K) (hlam : 0 ≤ lam) (x : Fin n → K)
    (hx : x ≠ 0) : 0 < Matrix.dotProduct x ((1 + lam • (D.transpose * D)).mulVec x) := by
  rw [system_quadratic]
  have h1 : 0 < Matrix.dotProduct x x := by
    rcases (dotProduct_self_nonneg_aux x).lt_or_eq with h | h
    · exact h
    · exact absurd (Matrix.dotProduct_self_eq_zero.mp h.symm) hx
  have h2 : 0 ≤ lam * roughness D x := mul_nonneg hlam (roughness_nonneg D x)
  linarith

theorem system_det_ne_zero (D : Dense K r n) (lam : K) (hlam : 0 ≤ lam) :
    (1 + lam • (D.transpose * D)).det ≠ 0 := by
  intro h
  obtain ⟨v, hv, hv0⟩ := Matrix.exists_mulVec_eq_zero_iff.mpr h
  have := system_posDef D lam hlam v hv
  rw [hv0, Matrix.dotProduct_zero] at this
  exact lt_irrefl _ this

theorem excess_aux (a h : Fin n → K) (p q : Fin r → K) (lam : K)
    (hc : Matrix.dotProduct a h = lam * Matrix.dotProduct p q) :
    Matrix.dotProduct (a - h) (a - h) + lam * Matrix.dotProduct (p + q) (p + q)
      = Matrix.dotProduct a a + lam * Matrix.dotProduct p p
        + (Matrix.dotProduct h h + lam * Matrix.dotProduct q q) := by
  simp only [Matrix.dotProduct_add, Matrix.add_dotProduct, Matrix.dotProduct_sub,
    Matrix.sub_dotProduct]
  rw [Matrix.dotProduct_comm h a, Matrix.dotProduct_comm q p, hc]
  ring

/-- A solution of the system minimises the objective: the excess of any other vector is
`|z - x|^2 + lambda * |D (z - x)|^2`. -/
theorem objective_excess (D : Dense K r n) (lam : K) (y x z : Fin n → K)
    (hx : (1 + lam • (D.transpose * D)).mulVec x = y) :
    objective D lam y z
      = objective D lam y x + (Matrix.dotProduct (z - x) (z - x) + lam * roughness D (z - x)) := by
  have hsq : ∀ u : Fin n → K, ∑ i : Fin n, (y i - u i) ^ 2
      = Matrix.dotProduct (y - u) (y - u) := by
    intro u
    simp [Matrix.dotProduct, pow_two]
  have hyx : y - x = lam • D.transpose.mulVec (D.mulVec x) := by
    rw [← hx, system_mulVec]
    simp
  have hz : z = x + (z - x) := by simp
  have hyz : y - z = (y - x) - (z - x) := by simp
  have hcross : Matrix.dotProduct (y - x) (z - x)
      = lam * Matrix.dotProduct (D.mulVec x) (D.mulVec (z - x)) := by
    rw [hyx, Matrix.smul_dotProduct, Matrix.dotProduct_comm, dotProduct_transpose_mulVec,
      Matrix.dotProduct_comm, smul_eq_mul]
  have hDz : D.mulVec z = D.mulVec x + D.mulVec (z - x) := by
    rw [← Matrix.mulVec_add, ← hz]
  unfold objective
  rw [hsq, hsq, roughness_eq_dotProduct, roughness_eq_dotProduct, roughness_eq_dotProduct,
    hDz, hyz]
  exact excess_aux (y - x) (z - x) (D.mulVec x) (D.mulVec (z - x)) lam hcross

theorem objective_minimal (D : Dense K r n) (lam : K) (hlam : 0 ≤ lam) (y x z : Fin n → K)
    (hx : (1 + lam • (D.transpose * D)).mulVec x = y) :
    objective D lam y x ≤ objective D lam y z := by
  rw [objective_excess D lam y x z hx]
  have h1 := dotProduct_self_nonneg_aux (z - x)
  have h2 : 0 ≤ lam * roughness D (z - x) := mul_nonneg hlam (roughness_nonneg D _)
  linarith

/-- Two minimisers for two weights: the one for the larger weight is not rougher. -/
theorem roughness_antitone (D : Dense K r n) (lam1 lam2 : K) (h1 : 0 ≤ lam1)
    (h12 : lam1 < lam2) (y x1 x2 : Fin n → K)
    (hx1 : (1 + lam1 • (D.transpose * D)).mulVec x1 = y)
    (hx2 : (1 + lam2 • (D.transpose * D)).mulVec x2 = y) :
    roughness D x2 ≤ roughness D x1 := by
  have m1 := objective_minimal D lam1 h1 y x1 x2 hx1
  have m2 := objective_minimal D lam2 (le_trans h1 h12.le) y x2 x1 hx2
  unfold objective at m1 m2
  by_contra hlt
  have hlt : roughness D x1 < roughness D x2 := not_le.mp hlt
  have : 0 < (lam2 - lam1) * (roughness D x2 - roughness D x1) :=
    mul_pos (sub_pos.mpr h12) (sub_pos.mpr hlt)
  nlinarith

end Solve

section Pipeline

variable {K : Type} [LinearOrderedField K]

/-- What an accepted input looks like: `createPenaltyMatrix` returns a matrix only when the
three checks pass and the allocation of its `n - d` rows does not panic. -/
theorem createPenaltyMatrix_ok_inv (data spacing : List K) (d : Int)
    (D : Dense K (data.length - d.toNat) data.length)
    (h : createPenaltyMatrix data spacing d = .ok D) :
    1 ≤ d ∧ spacing.length = data.length ∧ d < data.length := by
  unfold createPenaltyMatrix at h
  by_cases h1 : d < 1
  · rw [if_pos h1] at h
    cases h
  · rw [if_neg h1] at h
    by_cases h2 : spacing.length ≠ data.length
    · rw [if_pos h2] at h
      cases h
    · rw [if_neg h2] at h
      by_cases h3 : (data.length : Int) < d
      · rw [if_pos h3] at h
        cases h
      · rw [if_neg h3] at h
        by_cases h4 : data.length - d.toNat = 0 ∨ data.length = 0
        · unfold NewDense at h
          rw [if_pos h4] at h
          cases h
        · refine ⟨by omega, not_not.mp h2, by omega⟩

/-- With as many data points as the order, the allocation of the `0 × n` penalty matrix
panics. -/
theorem createPenaltyMatrix_square (data spacing : List K) (d : Int) (h1 : 1 ≤ d)
    (hs : spacing.length = data.length) (hn : (data.length : Int) = d) :
    createPenaltyMatrix data spacing d = .error (.panic .zeroLength) := by
  have hd : ¬ d < 1 := not_lt.mpr h1
  have hlt : ¬ ((data.length : Int) < d) := by omega
  have hr : data.length - d.toNat = 0 ∨ data.length = 0 := by omega
  unfold createPenaltyMatrix
  rw [if_neg hd, if_neg (not_not.mpr hs), if_neg hlt]
  unfold NewDense
  rw [if_pos hr]
  rfl

theorem effectiveSpacing_length (n : Nat) (spacing : Option (List K))
    (h : ValidSpacing n spacing) : (effectiveSpacing n spacing).length = n := by
  cases spacing with
  | none => simp [effectiveSpacing]
  | some s => exact h.1

theorem effectiveSpacing_ne_zero (n : Nat) (spacing : Option (List K))
    (h : ValidSpacing n spacing) : ∀ v ∈ effectiveSpacing n spacing, v ≠ 0 := by
  cases spacing with
  | none =>
    intro v hv
    rw [(List.mem_replicate.mp hv).2]
    exact one_ne_zero
  | some s => exact fun v hv => (h.2 v hv).ne'

/-- What `Smooth` does after a penalty matrix has been built: the solve decides. -/
theorem Smooth_of_matrix (data : List K) (lam : K) (order : Int) (spacing : Option (List K))
    (D : Dense K (data.length - order.toNat) data.length)
    (hD : createPenaltyMatrix data (effectiveSpacing data.length spacing) order = .ok D) :
    Smooth data lam order spacing =
      if (1 + lam • (D.transpose * D)).det = 0 then
        .error (.error (.solveSystem .singular))
      else .ok (List.ofFn (((1 + lam • (D.transpose * D)).det)⁻¹ •
        (1 + lam • (D.transpose * D)).adjugate.mulVec (toVec data.length data))) := by
  have hn : data.length ≠ 0 := by
    obtain ⟨h1, -, h2⟩ := createPenaltyMatrix_ok_inv _ _ _ _ hD
    omega
  unfold Smooth
  rw [hD]
  simp only [systemMatrix_eq _ hn, NewVecDense_eq data hn, bind_ok_eq]
  by_cases hdet : (1 + lam • (D.transpose * D)).det = 0
  · rw [if_pos hdet, SolveVec_singular _ _ hdet]
  · rw [if_neg hdet, SolveVec_regular _ _ hdet]
    exact extract_eq _

/-- A slice is returned by `Smooth` only through a penalty matrix and a regular system. -/
theorem Smooth_ok_inv (data : List K) (lam : K) (order : Int) (spacing : Option (List K))
    (x : List K) (h : Smooth data lam order spacing = .ok x) :
    ∃ D : Dense K (data.length - order.toNat) data.length,
      createPenaltyMatrix data (effectiveSpacing data.length spacing) order = .ok D ∧
      (1 + lam • (D.transpose * D)).det ≠ 0 ∧
      x = List.ofFn (((1 + lam • (D.transpose * D)).det)⁻¹ •
        (1 + lam • (D.transpose * D)).adjugate.mulVec (toVec data.length data)) := by
  cases hD : createPenaltyMatrix data (effectiveSpacing data.length spacing) order with
  | error f =>
    exfalso
    unfold Smooth at h
    rw [hD] at h
    cases f <;> cases h
  | ok D =>
    rw [Smooth_of_matrix data lam order spacing D hD] at h
    by_cases hdet : (1 + lam • (D.transpose * D)).det = 0
    · rw [if_pos hdet] at h
      cases h
    · rw [if_neg hdet] at h
      exact ⟨D, rfl, hdet, (Except.ok.inj h).symm⟩

/-- The system solved by the slice that `Smooth` returns, with uniqueness. -/
theorem Smooth_ok_solves (data : List K) (lam : K) (order : Int) (spacing : Option (List K))
    (x : List K) (h : Smooth data lam order spacing = .ok x) :
    ∃ D : Dense K (data.length - order.toNat) data.length,
      createPenaltyMatrix data (effectiveSpacing data.length spacing) order = .ok D ∧
      x.length = data.length ∧
      (1 + lam • (D.transpose * D)).mulVec (toVec data.length x) = toVec data.length data ∧
      ∀ z : Fin data.length → K,
        (1 + lam • (D.transpose * D)).mulVec z = toVec data.length data →
        z = toVec data.length x := by
  obtain ⟨D, hD, hdet, hx⟩ := Smooth_ok_inv data lam order spacing x h
  refine ⟨D, hD, ?_, ?_, ?_⟩
  · rw [hx]
    simp
  · rw [hx, toVec_ofFn]
    exact mulVec_cramer _ _ hdet
  · intro z hz
    rw [hx, toVec_ofFn]
    exact eq_cramer_of_mulVec _ _ z hdet hz

/-- On a valid input with `d < n` and `lambda ≥ 0`, `Smooth` returns a slice. -/
theorem Smooth_returns (data : List K) (lam : K) (order : Int) (spacing : Option (List K))
    (h1 : 1 ≤ order) (h2 : order < data.length) (hlam : 0 ≤ lam)
    (hs : ValidSpacing data.length spacing) :
    ∃ x, Smooth data lam order spacing = .ok x := by
  have hD := createPenaltyMatrix_eq data (effectiveSpacing data.length spacing) order h1 h2
    (effectiveSpacing_length _ _ hs) (effectiveSpacing_ne_zero _ _ hs)
  rw [Smooth_of_matrix data lam order spacing _ hD, if_neg (system_det_ne_zero _ lam hlam)]
  exact ⟨_, rfl⟩

/-- With `lambda = 0` and `d < n` the system is the identity and the data come back. -/
theorem Smooth_zero (data : List K) (order : Int) (spacing : Option (List K))
    (h1 : 1 ≤ order) (h2 : order < data.length) (hs : ValidSpacing data.length spacing) :
    Smooth data 0 order spacing = .ok data := by
  obtain ⟨x, hx⟩ := Smooth_returns data 0 order spacing h1 h2 le_rfl hs
  obtain ⟨D, -, hlen, hsol, -⟩ := Smooth_ok_solves data 0 order spacing x hx
  rw [hx]
  congr 1
  rw [zero_smul, add_zero, Matrix.one_mulVec] at hsol
  apply List.ext_getElem hlen
  intro i hi1 hi2
  have hget : x.getD i 0 = data.getD i 0 := congrFun hsol ⟨i, hi2⟩
  rw [List.getD_eq_getElem _ _ hi1, List.getD_eq_getElem _ _ hi2] at hget
  exact hget

/-- With `n = order`, `Smooth` panics in the allocation of the penalty matrix. -/
theorem Smooth_square (data : List K) (lam : K) (order : Int) (spacing : Option (List K))
    (h1 : 1 ≤ order) (hn : (data.length : Int) = order)
    (hs : ValidSpacing data.length spacing) :
    Smooth data lam order spacing = .error (.panic .zeroLength) := by
  have hD := createPenaltyMatrix_square data (effectiveSpacing data.length spacing) order h1
    (effectiveSpacing_length _ _ hs) hn
  unfold Smooth
  rw [hD]

end Pipeline

section Validation

variable {K : Type} [LinearOrderedField K]

theorem createPenaltyMatrix_order (data spacing : List K) (d : Int) (h : d < 1) :
    createPenaltyMatrix data spacing d = .error (.error .orderTooSmall) := by
  unfold createPenaltyMatrix
  rw [if_pos h]

theorem createPenaltyMatrix_spacing (data spacing : List K) (d : Int) (h : 1 ≤ d)
    (hs : spacing.length ≠ data.length) :
    createPenaltyMatrix data spacing d = .error (.error .spacingLength) := by
  unfold createPenaltyMatrix
  rw [if_neg (not_lt.mpr h), if_pos hs]

theorem createPenaltyMatrix_short (data spacing : List K) (d : Int)
    (hs : spacing.length = data.length) (hn : (data.length : Int) < d) :
    createPenaltyMatrix data spacing d = .error (.error .dataTooShort) := by
  have h1 : ¬ d < 1 := by omega
  unfold createPenaltyMatrix
  rw [if_neg h1, if_neg (not_not.mpr hs), if_pos hn]

/-- An error of `createPenaltyMatrix` is wrapped by `Smooth`, which returns no slice. -/
theorem Smooth_of_penalty_error (data : List K) (lam : K) (order : Int)
    (spacing : Option (List K)) (e : Error)
    (h : createPenaltyMatrix data (effectiveSpacing data.length spacing) order
      = .error (.error e)) :
    Smooth data lam order spacing = .error (.error (.penaltyMatrix e)) := by
  unfold Smooth
  rw [h]

end Validation

section Examples

variable {K : Type} [LinearOrderedField K]

/-- A slice of the right length that solves the system is what `Smooth` returns. -/
theorem Smooth_eq_of_solves (data : List K) (lam : K) (order : Int)
    (spacing : Option (List K)) (x : List K)
    (D : Dense K (data.length - order.toNat) data.length)
    (hD : createPenaltyMatrix data (effectiveSpacing data.length spacing) order = .ok D)
    (hlam : 0 ≤ lam) (hlen : x.length = data.length)
    (hx : (1 + lam • (D.transpose * D)).mulVec (toVec data.length x) = toVec data.length data) :
    Smooth data lam order spacing = .ok x := by
  have hdet := system_det_ne_zero D lam hlam
  rw [Smooth_of_matrix data lam order spacing D hD, if_neg hdet,
    ← eq_cramer_of_mulVec _ _ _ hdet hx]
  congr 1
  apply List.ext_getElem (by simp [hlen])
  intro i hi1 hi2
  rw [List.getElem_ofFn]
  exact List.getD_eq_getElem x 0 hi2

/-- Two data points, first differences, unit spacing, `lambda = 1`. -/
theorem Smooth_two_points :
    Smooth ([1, 2] : List ℚ) 1 1 none = .ok [4 / 3, 5 / 3] := by
  have hD := createPenaltyMatrix_eq ([1, 2] : List ℚ) (effectiveSpacing 2 none) 1
    (by decide) (by decide) (effectiveSpacing_length 2 none trivial)
    (effectiveSpacing_ne_zero 2 none trivial)
  refine Smooth_eq_of_solves _ _ _ _ _ _ hD (by norm_num) rfl ?_
  funext i
  fin_cases i <;>
    simp [Matrix.mulVec, Matrix.dotProduct, Fin.sum_univ_succ, Matrix.mul_apply,
      Matrix.one_apply, bandMatrix, penaltyValue, toVec, effectiveSpacing] <;>
    norm_num

end Examples

section Differences

variable {K : Type} [LinearOrderedField K]

theorem alternating_step (d : Nat) (g : Nat → K) :
    ∑ j in Finset.range (d + 2), ((d + 1).choose j : K) * (-1) ^ j * g j
      = ∑ j in Finset.range (d + 1), (d.choose j : K) * (-1) ^ j * g j
        - ∑ j in Finset.range (d + 1), (d.choose j : K) * (-1) ^ j * g (j + 1) := by
  have hA : ∑ j in Finset.range (d + 1), (d.choose j : K) * (-1) ^ j * g j
      = ∑ j in Finset.range (d + 1), (d.choose (j + 1) : K) * (-1) ^ (j + 1) * g (j + 1)
        + g 0 := by
    have h := Finset.sum_range_succ (fun j => (d.choose j : K) * (-1) ^ j * g j) (d + 1)
    rw [Nat.choose_succ_self, Nat.cast_zero, zero_mul, zero_mul, add_zero] at h
    rw [← h, Finset.sum_range_succ']
    simp
  rw [Finset.sum_range_succ', hA]
  have hB : ∀ j : Nat, ((d + 1).choose (j + 1) : K) * (-1) ^ (j + 1) * g (j + 1)
      = (d.choose (j + 1) : K) * (-1) ^ (j + 1) * g (j + 1)
        - (d.choose j : K) * (-1) ^ j * g (j + 1) := by
    intro j
    rw [Nat.choose_succ_succ, Nat.cast_add, pow_succ]
    ring
  simp only [hB, Finset.sum_sub_distrib, Nat.choose_zero_right, Nat.cast_one, pow_zero,
    one_mul]
  ring

/-- The alternating binomial sum over `d + 1` consecutive terms is, up to the sign
`(-1)^d`, the `d`-th difference. -/
theorem alternating_sum_eq_differences (d : Nat) (f : Nat → K) (i : Nat) :
    ∑ j in Finset.range (d + 1), (d.choose j : K) * (-1) ^ j * f (i + j)
      = (-1) ^ d * differences d f i := by
  induction d generalizing i with
  | zero => simp [differences]
  | succ d ih =>
    have h := alternating_step d (fun j => f (i + j))
    have h1 := ih (i + 1)
    have h2 := ih i
    have h3 : ∀ j : Nat, f (i + (j + 1)) = f (i + 1 + j) := fun j => by
      rw [Nat.add_assoc, Nat.add_comm 1 j]
    simp only [h3] at h
    rw [h, h1, h2]
    simp only [differences, forwardDifference, pow_succ]
    ring

theorem penaltyValue_unit (n d i j : Nat) (hj : i + j < n) :
    penaltyValue (List.replicate n (1 : K)) d i j = (d.choose j : K) * (-1) ^ j := by
  unfold penaltyValue
  by_cases hm : 0 < j ∧ j < d
  · have h0 : i + j - 1 < (List.replicate n (1 : K)).length := by
      rw [List.length_replicate]
      omega
    have h1 : i + j < (List.replicate n (1 : K)).length := by
      rw [List.length_replicate]
      exact hj
    rw [if_pos hm, List.getD_eq_getElem _ _ h0, List.getD_eq_getElem _ _ h1,
      List.getElem_replicate, List.getElem_replicate, div_one, mul_one]
  · rw [if_neg hm]

/-- A row of the band matrix for unit spacing applied to a vector: the alternating
binomial sum of `d + 1` consecutive entries. -/
theorem bandMatrix_unit_mulVec (r n d : Nat) (f : Nat → K) (i : Fin r)
    (hi : i.val + d < n) :
    (bandMatrix (List.replicate n (1 : K)) r n d).mulVec (fun k : Fin n => f k.val) i
      = ∑ j in Finset.range (d + 1), (d.choose j : K) * (-1) ^ j * f (i.val + j) := by
  have h1 : (bandMatrix (List.replicate n (1 : K)) r n d).mulVec (fun k : Fin n => f k.val) i
      = ∑ k : Fin n, (fun k : Nat => (if i.val ≤ k ∧ k ≤ i.val + d then
          penaltyValue (List.replicate n (1 : K)) d i.val (k - i.val) else 0) * f k) k.val :=
    rfl
  rw [h1, Fin.sum_univ_eq_sum_range (fun k : Nat => (if i.val ≤ k ∧ k ≤ i.val + d then
    penaltyValue (List.replicate n (1 : K)) d i.val (k - i.val) else 0) * f k) n]
  have hsub : Finset.Ico i.val (i.val + d + 1) ⊆ Finset.range n := by
    intro k hk
    rw [Finset.mem_Ico] at hk
    rw [Finset.mem_range]
    omega
  rw [← Finset.sum_subset hsub, Finset.sum_Ico_eq_sum_range]
  · have hlen : i.val + d + 1 - i.val = d + 1 := by omega
    rw [hlen]
    apply Finset.sum_congr rfl
    intro j hj
    rw [Finset.mem_range] at hj
    have hc : i.val ≤ i.val + j ∧ i.val + j ≤ i.val + d := by omega
    have hk : i.val + j - i.val = j := by omega
    rw [if_pos hc, hk, penaltyValue_unit n d i.val j (by omega)]
  · intro k _ hk
    rw [Finset.mem_Ico] at hk
    have hc : ¬ (i.val ≤ k ∧ k ≤ i.val + d) := by omega
    rw [if_neg hc, zero_mul]

/-- For unit spacing the roughness is the sum of the squared `d`-th differences. -/
theorem roughness_unit (n d : Nat) (v : List K) :
    roughness (bandMatrix (List.replicate n (1 : K)) (n - d) n d) (toVec n v)
      = ∑ i in Finset.range (n - d), (differences d (fun k => v.getD k 0) i) ^ 2 := by
  unfold roughness
  rw [← Fin.sum_univ_eq_sum_range (fun i => (differences d (fun k => v.getD k 0) i) ^ 2)
    (n - d)]
  apply Finset.sum_congr rfl
  intro i _
  have hi : i.val + d < n := by
    have := i.isLt
    omega
  have hrow := bandMatrix_unit_mulVec (n - d) n d (fun k => v.getD k 0) i hi
  have hvec : (fun k : Fin n => (fun k => v.getD k 0) k.val) = toVec n v := rfl
  rw [hvec] at hrow
  rw [hrow, alternating_sum_eq_differences d (fun k => v.getD k 0) i.val, mul_pow, ← pow_mul,
    mul_comm d 2, pow_mul]
  simp

end Differences

section Unit

variable {K : Type} [LinearOrderedField K]

/-- Entry `k` of the system matrix for unit spacing applied to a slice. -/
theorem system_unit_apply (n d : Nat) (lam : K) (v : List K) (k : Fin n) :
    (1 + lam • ((bandMatrix (List.replicate n (1 : K)) (n - d) n d).transpose
        * bandMatrix (List.replicate n (1 : K)) (n - d) n d)).mulVec (toVec n v) k
      = v.getD k.val 0 + lam * ∑ i in Finset.range (n - d),
          (if i ≤ k.val ∧ k.val ≤ i + d then (d.choose (k.val - i) : K) * (-1) ^ (k.val - i)
            else 0)
          * ∑ j in Finset.range (d + 1), (d.choose j : K) * (-1) ^ j * v.getD (i + j) 0 := by
  rw [system_mulVec]
  have hT : (bandMatrix (List.replicate n (1 : K)) (n - d) n d).transpose.mulVec
      ((bandMatrix (List.replicate n (1 : K)) (n - d) n d).mulVec (toVec n v)) k
      = ∑ i : Fin (n - d), (fun i : Nat =>
          (if i ≤ k.val ∧ k.val ≤ i + d then (d.choose (k.val - i) : K) * (-1) ^ (k.val - i)
            else 0)
          * ∑ j in Finset.range (d + 1), (d.choose j : K) * (-1) ^ j * v.getD (i + j) 0)
          i.val := by
    show ∑ i : Fin (n - d), bandMatrix (List.replicate n (1 : K)) (n - d) n d i k
        * (bandMatrix (List.replicate n (1 : K)) (n - d) n d).mulVec (toVec n v) i = _
    apply Finset.sum_congr rfl
    intro i _
    have hi : i.val + d < n := by
      have := i.isLt
      omega
    have hrow : (bandMatrix (List.replicate n (1 : K)) (n - d) n d).mulVec (toVec n v) i
        = ∑ j in Finset.range (d + 1), (d.choose j : K) * (-1) ^ j * v.getD (i.val + j) 0 :=
      bandMatrix_unit_mulVec (n - d) n d (fun k => v.getD k 0) i hi
    rw [hrow]
    congr 1
    unfold bandMatrix
    by_cases hc : i.val ≤ k.val ∧ k.val ≤ i.val + d
    · rw [if_pos hc, if_pos hc, penaltyValue_unit n d i.val (k.val - i.val) (by omega)]
    · rw [if_neg hc, if_neg hc]
  rw [Pi.add_apply, Pi.smul_apply, hT, Fin.sum_univ_eq_sum_range (fun i : Nat =>
          (if i ≤ k.val ∧ k.val ≤ i + d then (d.choose (k.val - i) : K) * (-1) ^ (k.val - i)
            else 0)
          * ∑ j in Finset.range (d + 1), (d.choose j : K) * (-1) ^ j * v.getD (i + j) 0) (n - d),
    smul_eq_mul]
  rfl

end Unit

section TestCase

variable {K : Type} [LinearOrderedField K]

/-- The exact output of `Smooth` on the test data for `lambda = 200`, `order = 3`. -/
theorem Smooth_testData_order_three : Smooth testData 200 3 none = .ok testOutput := by
  have hD := createPenaltyMatrix_eq testData (effectiveSpacing 10 none) 3
    (by decide) (by decide) (effectiveSpacing_length 10 none trivial)
    (effectiveSpacing_ne_zero 10 none trivial)
  refine Smooth_eq_of_solves _ _ _ _ _ _ hD (by norm_num) rfl ?_
  funext k
  have h := system_unit_apply 10 3 (200 : ℚ) testOutput k
  refine h.trans ?_
  fin_cases k <;>
    simp [Finset.sum_range_succ, Nat.choose, testOutput, testData, toVec] <;>
    norm_num

/-- Two numbers with a positive average whose difference is small against it are `within`
the percentage. -/
theorem within_of_bounds (a b perc : K) (hpos : 0 < (a + b) / 2)
    (h1 : (a - b) * 100 ≤ perc * ((a + b) / 2))
    (h2 : (b - a) * 100 ≤ perc * ((a + b) / 2)) : within a b perc = true := by
  unfold within
  by_cases hab : a = b
  · rw [if_pos hab]
  · rw [if_neg hab]
    simp only [hpos.ne', if_false, decide_eq_true_eq]
    rw [div_mul_eq_mul_div, div_le_iff₀ hpos]
    rcases abs_cases (a - b) with ⟨h, _⟩ | ⟨h, _⟩
    · rw [h]
      exact h1
    · rw [h, neg_sub]
      exact h2

theorem testOutput_within (i : Nat) (hi : i < 10) :
    within (testOutput.getD i 0) (testWant.getD i 0) 0.01 = true := by
  interval_cases i <;>
    (apply within_of_bounds <;> simp [testOutput, testWant] <;> norm_num)

end TestCase

section Safety

variable {K : Type} [LinearOrderedField K]

theorem Safe.bind {α β : Type} {r : Except Fault α} {f : α → Except Fault β}
    (hr : Safe r) (hf : ∀ v, Safe (f v)) : Safe (r >>= f) := by
  rcases hr with ⟨v, rfl⟩ | rfl
  · exact hf v
  · exact Or.inr rfl

theorem Safe.not_panic {α : Type} {r : Except Fault α} (hr : Safe r) (p : Panic) :
    r ≠ .error (.panic p) := by
  rcases hr with ⟨v, rfl⟩ | rfl <;> exact fun h => by cases h

theorem Safe.not_error {α : Type} {r : Except Fault α} (hr : Safe r) (e : Error) :
    r ≠ .error (.error e) := by
  rcases hr with ⟨v, rfl⟩ | rfl <;> exact fun h => by cases h

/-- A loop whose body is safe at every step is safe. -/
theorem foldlM_safe {β : Type} (f : β → Nat → Except Fault β) (l : List Nat)
    (hf : ∀ k ∈ l, ∀ b, Safe (f b k)) (b0 : β) : Safe (l.foldlM f b0) := by
  induction l generalizing b0 with
  | nil => exact Or.inl ⟨b0, rfl⟩
  | cons a l ih =>
    rw [List.foldlM_cons]
    exact Safe.bind (hf a (List.mem_cons_self a l) b0)
      (fun b => ih (fun k hk => hf k (List.mem_cons_of_mem a hk)) b)

theorem quotient_safe (a b : K) : Safe (quotient a b) := by
  unfold quotient
  by_cases hb : b = 0
  · rw [if_pos hb]
    exact Or.inr rfl
  · rw [if_neg hb]
    exact Or.inl ⟨_, rfl⟩

theorem penalty_safe (spacing : List K) (d i j : Nat) (hj : j ≤ d)
    (hlen : i + d ≤ spacing.length) : Safe (penalty spacing d i j) := by
  unfold penalty
  rw [binomialCoefficient_eq d j hj]
  by_cases hm : 0 < j ∧ j < d
  · have h0 : i + j - 1 < spacing.length := by omega
    have h1 : i + j < spacing.length := by omega
    simp only [bind_ok_eq, if_pos hm, index_eq _ _ h0, index_eq _ _ h1]
    exact Safe.bind (quotient_safe _ _) (fun q => Or.inl ⟨_, rfl⟩)
  · simp only [bind_ok_eq, if_neg hm]
    exact Or.inl ⟨_, rfl⟩

theorem Set_ok {R : Type} {r c : Nat} (E : Dense R r c) (i j : Nat) (v : R) (hi : i < r)
    (hj : j < c) :
    ∃ E', E.Set i j v = .ok E' := by
  unfold Dense.Set
  rw [if_pos hi, if_pos hj]
  exact ⟨_, rfl⟩

/-- Inside the loop bounds the guard `i+j < n` holds, so the cell is computed and set. -/
theorem fillCell_guard {r c : Nat} (spacing : List K) (n d i j : Nat) (E : Dense K r c)
    (h : i + j < n) :
    fillCell spacing n d i E j = (penalty spacing d i j >>= fun p => E.Set i (i + j) p) := by
  unfold fillCell
  rw [if_pos h]

theorem fillCell_safe {r n : Nat} (spacing : List K) (d i j : Nat) (E : Dense K r n)
    (hi : i < r) (hid : i + d < n) (hj : j ≤ d) (hlen : i + d ≤ spacing.length) :
    Safe (fillCell spacing n d i E j) := by
  rw [fillCell_guard spacing n d i j E (by omega)]
  refine Safe.bind (penalty_safe spacing d i j hj hlen) (fun p => ?_)
  obtain ⟨E', hE'⟩ := Set_ok E i (i + j) p hi (by omega)
  exact Or.inl ⟨E', hE'⟩

theorem fillRow_safe {r n : Nat} (spacing : List K) (d i : Nat) (E : Dense K r n)
    (hi : i < r) (hid : i + d < n) (hlen : i + d ≤ spacing.length) :
    Safe (fillRow spacing n d E i) := by
  unfold fillRow
  refine foldlM_safe _ _ (fun j hj b => ?_) E
  rw [List.mem_range] at hj
  exact fillCell_safe spacing d i j b hi hid (by omega) hlen

theorem fillRows_safe {r n : Nat} (spacing : List K) (d : Nat) (E : Dense K r n)
    (hr : r = n - d) (hlen : n ≤ spacing.length) : Safe (fillRows spacing n d E) := by
  unfold fillRows
  refine foldlM_safe _ _ (fun i hi b => ?_) E
  rw [List.mem_range] at hi
  exact fillRow_safe spacing d i b (by omega) (by omega) (by omega)

/-- After the three checks, with `d < n`, `createPenaltyMatrix` neither panics nor returns an
error value. -/
theorem createPenaltyMatrix_safe (data spacing : List K) (d : Int) (h1 : 1 ≤ d)
    (h2 : d < data.length) (hs : spacing.length = data.length) :
    Safe (createPenaltyMatrix data spacing d) := by
  have hd : ¬ d < 1 := not_lt.mpr h1
  have hn : ¬ ((data.length : Int) < d) := by omega
  have hr : ¬ (data.length - d.toNat = 0 ∨ data.length = 0) := by omega
  unfold createPenaltyMatrix
  rw [if_neg hd, if_neg (not_not.mpr hs), if_neg hn]
  unfold NewDense
  rw [if_neg hr]
  exact fillRows_safe spacing d.toNat _ rfl (le_of_eq hs.symm)

/-- The value of `createPenaltyMatrix` is an error value exactly when one of the three checks
fires, and the error is that of the first check that fires. -/
theorem createPenaltyMatrix_error_iff (data spacing : List K) (d : Int) (e : Error) :
    createPenaltyMatrix data spacing d = .error (.error e) ↔
      (d < 1 ∧ e = .orderTooSmall) ∨
      (1 ≤ d ∧ spacing.length ≠ data.length ∧ e = .spacingLength) ∨
      (1 ≤ d ∧ spacing.length = data.length ∧ (data.length : Int) < d ∧
        e = .dataTooShort) := by
  by_cases h1 : d < 1
  · rw [createPenaltyMatrix_order data spacing d h1]
    constructor
    · intro h
      cases h
      exact Or.inl ⟨h1, rfl⟩
    · rintro (⟨-, rfl⟩ | ⟨h, -⟩ | ⟨h, -⟩)
      · rfl
      · omega
      · omega
  · have h1' : 1 ≤ d := not_lt.mp h1
    by_cases hs : spacing.length ≠ data.length
    · rw [createPenaltyMatrix_spacing data spacing d h1' hs]
      constructor
      · intro h
        cases h
        exact Or.inr (Or.inl ⟨h1', hs, rfl⟩)
      · rintro (⟨h, -⟩ | ⟨-, -, rfl⟩ | ⟨-, h, -⟩)
        · exact absurd h h1
        · rfl
        · exact absurd h hs
    · have hs' : spacing.length = data.length := not_not.mp hs
      by_cases hn : (data.length : Int) < d
      · rw [createPenaltyMatrix_short data spacing d hs' hn]
        constructor
        · intro h
          cases h
          exact Or.inr (Or.inr ⟨h1', hs', hn, rfl⟩)
        · rintro (⟨h, -⟩ | ⟨-, h, -⟩ | ⟨-, -, -, rfl⟩)
          · exact absurd h h1
          · exact absurd hs' h
          · rfl
      · constructor
        · intro h
          exfalso
          rcases lt_or_eq_of_le (not_lt.mp hn) with hlt | heq
          · exact (createPenaltyMatrix_safe data spacing d h1' hlt hs').not_error e h
          · rw [createPenaltyMatrix_square data spacing d h1' hs' heq.symm] at h
            cases h
        · rintro (⟨h, -⟩ | ⟨-, h, -⟩ | ⟨-, -, h, -⟩)
          · exact absurd h h1
          · exact absurd hs' h
          · exact absurd h hn

end Safety

section Spacing

variable {K : Type} [LinearOrderedField K]

/-- The fill loop depends on the spacing only through the values of `penalty`. -/
theorem fillRows_congr {r c : Nat} (s s' : List K) (n d : Nat)
    (h : penalty s d = penalty s' d) (E : Dense K r c) :
    fillRows s n d E = fillRows s' n d E := by
  have hcell : ∀ i : Nat, (fillCell s n d i : Dense K r c → Nat → Except Fault (Dense K r c))
      = fillCell s' n d i := by
    intro i
    funext E j
    unfold fillCell
    rw [h]
  have hrow : (fillRow s n d : Dense K r c → Nat → Except Fault (Dense K r c))
      = fillRow s' n d := by
    funext E i
    unfold fillRow
    rw [hcell i]
  unfold fillRows
  rw [hrow]

/-- Two spacings of the same length with the same values of `penalty` give the same result
of `createPenaltyMatrix`. -/
theorem createPenaltyMatrix_congr (data s s' : List K) (d : Int) (hlen : s.length = s'.length)
    (h : penalty s d.toNat = penalty s' d.toNat) :
    createPenaltyMatrix data s d = createPenaltyMatrix data s' d := by
  unfold createPenaltyMatrix
  rw [hlen]
  by_cases h1 : d < 1
  · rw [if_pos h1, if_pos h1]
  · rw [if_neg h1, if_neg h1]
    by_cases h2 : s'.length ≠ data.length
    · rw [if_pos h2, if_pos h2]
    · rw [if_neg h2, if_neg h2]
      by_cases h3 : (data.length : Int) < d
      · rw [if_pos h3, if_pos h3]
      · rw [if_neg h3, if_neg h3]
        cases hN : (NewDense (data.length - d.toNat) data.length :
            Except Fault (Dense K (data.length - d.toNat) data.length)) with
        | error f => rfl
        | ok E => exact fillRows_congr s s' data.length d.toNat h E

theorem Smooth_congr (data : List K) (lam : K) (order : Int) (sp sp' : Option (List K))
    (h : createPenaltyMatrix data (effectiveSpacing data.length sp) order
      = createPenaltyMatrix data (effectiveSpacing data.length sp') order) :
    Smooth data lam order sp = Smooth data lam order sp' := by
  unfold Smooth
  rw [h]

/-- For order 1 no interior term exists: `penalty` never reads the spacing. -/
theorem penalty_order_one (s s' : List K) : penalty s 1 = penalty s' 1 := by
  funext i j
  have hm : ¬ (0 < j ∧ j < 1) := by omega
  unfold penalty
  simp only [if_neg hm]

theorem quotient_scale (c a b : K) (hc : c ≠ 0) : quotient (c * a) (c * b) = quotient a b := by
  unfold quotient
  by_cases hb : b = 0
  · have hcb : c * b = 0 := by rw [hb, mul_zero]
    rw [if_pos hb, if_pos hcb]
  · have hcb : c * b ≠ 0 := mul_ne_zero hc hb
    rw [if_neg hb, if_neg hcb, mul_div_mul_left a b hc]

theorem index_map {R : Type} (s : List R) (f : R → R) (k : Nat) :
    index (s.map f) k = (index s k >>= fun v => pure (f v)) := by
  unfold index
  rw [List.getElem?_map]
  cases s[k]? <;> rfl

/-- Multiplying every spacing entry by the same non-zero constant leaves `penalty`
unchanged. -/
theorem penalty_scale (s : List K) (c : K) (hc : c ≠ 0) (d : Nat) :
    penalty (s.map (fun v => c * v)) d = penalty s d := by
  funext i j
  unfold penalty
  cases hb : (binomialCoefficient d j : Except Fault K) with
  | error f => rfl
  | ok b =>
    simp only [bind_ok_eq]
    by_cases hm : 0 < j ∧ j < d
    · simp only [if_pos hm, index_map]
      cases h0 : index s (i + j - 1) with
      | error f => rfl
      | ok a0 =>
        cases h1 : index s (i + j) with
        | error f => rfl
        | ok a1 =>
          simp only [bind_ok_eq, pure_eq_ok, quotient_scale c a0 a1 hc]
    · simp only [if_neg hm]

end Spacing

section Polynomials

variable {K : Type} [LinearOrderedField K]

open Polynomial

theorem differences_shift (d : Nat) (f : Nat → K) :
    differences (d + 1) f = differences d (forwardDifference f) := by
  induction d with
  | zero => rfl
  | succ d ih =>
    show forwardDifference (differences (d + 1) f) = forwardDifference (differences d _)
    rw [ih]

/-- Shifting a polynomial by one and subtracting it lowers the degree. -/
theorem degree_shift_sub_lt (p : K[X]) (hp : p ≠ 0) :
    (p.comp (X + C 1) - p).degree < p.degree := by
  have hnat : (p.comp (X + C 1)).natDegree = p.natDegree := by
    rw [natDegree_comp, natDegree_X_add_C, mul_one]
  have hlead : (p.comp (X + C 1)).leadingCoeff = p.leadingCoeff := by
    rw [leadingCoeff_comp (by rw [natDegree_X_add_C]; exact one_ne_zero),
      leadingCoeff_X_add_C, one_pow, mul_one]
  have hq : p.comp (X + C 1) ≠ 0 := by
    intro h0
    rw [h0, leadingCoeff_zero] at hlead
    exact hp (leadingCoeff_eq_zero.mp hlead.symm)
  have hdeg : (p.comp (X + C 1)).degree = p.degree := by
    rw [degree_eq_natDegree hq, degree_eq_natDegree hp, hnat]
  have := degree_sub_lt hdeg hq hlead
  rwa [hdeg] at this

theorem forwardDifference_eval (p : K[X]) :
    forwardDifference (fun k : Nat => p.eval (k : K))
      = fun k : Nat => (p.comp (X + C 1) - p).eval (k : K) := by
  funext k
  simp [forwardDifference, eval_comp]

/-- The `d`-th differences of the values at `0, 1, 2, ...` of a polynomial of degree less
than `d` vanish. -/
theorem differences_polynomial (d : Nat) (p : K[X]) (hp : p.degree < d) :
    differences d (fun k : Nat => p.eval (k : K)) = fun _ => 0 := by
  induction d generalizing p with
  | zero =>
    have h0 : p = 0 := by
      rw [← degree_eq_bot]
      exact Nat.WithBot.lt_zero_iff.mp hp
    funext k
    simp [differences, h0]
  | succ d ih =>
    rw [differences_shift, forwardDifference_eval]
    apply ih
    by_cases h0 : p = 0
    · rw [h0]
      simp only [zero_comp, sub_zero, degree_zero]
      exact WithBot.bot_lt_coe d
    · have h1 := degree_shift_sub_lt p h0
      have h2 : p.degree ≤ d := by
        rw [degree_eq_natDegree h0] at hp ⊢
        exact_mod_cast Nat.lt_succ_iff.mp (by exact_mod_cast hp)
      exact lt_of_lt_of_le h1 h2

end Polynomials

section Conditioning

variable {K : Type} [LinearOrderedField K]

/-- What `SmoothChecked` does after a penalty matrix has been built: the solve decides, by
the determinant and then by the condition number. -/
theorem SmoothChecked_of_matrix (data : List K) (lam : K) (order : Int)
    (spacing : Option (List K)) (D : Dense K (data.length - order.toNat) data.length)
    (hD : createPenaltyMatrix data (effectiveSpacing data.length spacing) order = .ok D) :
    SmoothChecked data lam order spacing =
      if (1 + lam • (D.transpose * D)).det = 0 then
        .error (.error (.solveSystem .singular))
      else if ConditionTolerance < conditionNumber (1 + lam • (D.transpose * D)) then
        .error (.error (.solveSystem .nearSingular))
      else .ok (List.ofFn (((1 + lam • (D.transpose * D)).det)⁻¹ •
        (1 + lam • (D.transpose * D)).adjugate.mulVec (toVec data.length data))) := by
  have hn : data.length ≠ 0 := by
    obtain ⟨h1, -, h2⟩ := createPenaltyMatrix_ok_inv _ _ _ _ hD
    omega
  unfold SmoothChecked
  rw [hD]
  simp only [systemMatrix_eq _ hn, NewVecDense_eq data hn, bind_ok_eq]
  unfold SolveVecChecked
  by_cases hdet : (1 + lam • (D.transpose * D)).det = 0
  · rw [if_pos hdet, if_pos hdet]
  · rw [if_neg hdet, if_neg hdet]
    by_cases hc : ConditionTolerance < conditionNumber (1 + lam • (D.transpose * D))
    · rw [if_pos hc, if_pos hc]
    · rw [if_neg hc, if_neg hc]
      exact extract_eq _

/-- Before the solve the two functions are the same: an error or a panic of
`createPenaltyMatrix` ends both alike. -/
theorem SmoothChecked_of_penalty_fault (data : List K) (lam : K) (order : Int)
    (spacing : Option (List K)) (f : Fault)
    (hD : createPenaltyMatrix data (effectiveSpacing data.length spacing) order = .error f) :
    SmoothChecked data lam order spacing = Smooth data lam order spacing := by
  unfold SmoothChecked Smooth
  rw [hD]
  cases f <;> rfl

/-- A slice that `SmoothChecked` returns is the slice that `Smooth` returns. -/
theorem SmoothChecked_ok_imp (data : List K) (lam : K) (order : Int)
    (spacing : Option (List K)) (x : List K)
    (h : SmoothChecked data lam order spacing = .ok x) :
    Smooth data lam order spacing = .ok x := by
  cases hD : createPenaltyMatrix data (effectiveSpacing data.length spacing) order with
  | error f => rw [← SmoothChecked_of_penalty_fault data lam order spacing f hD, h]
  | ok D =>
    rw [SmoothChecked_of_matrix data lam order spacing D hD] at h
    rw [Smooth_of_matrix data lam order spacing D hD]
    by_cases hdet : (1 + lam • (D.transpose * D)).det = 0
    · rw [if_pos hdet] at h
      cases h
    · rw [if_neg hdet] at h
      rw [if_neg hdet]
      by_cases hc : ConditionTolerance < conditionNumber (1 + lam • (D.transpose * D))
      · rw [if_pos hc] at h
        cases h
      · rw [if_neg hc] at h
        exact h

/-- With `lambda ≥ 0` the system is regular, so after a penalty matrix has been built
`SmoothChecked` fails exactly when the condition number exceeds the tolerance, and otherwise
returns what `Smooth` returns. -/
theorem SmoothChecked_of_nonneg (data : List K) (lam : K) (order : Int)
    (spacing : Option (List K)) (D : Dense K (data.length - order.toNat) data.length)
    (hD : createPenaltyMatrix data (effectiveSpacing data.length spacing) order = .ok D)
    (hlam : 0 ≤ lam) :
    SmoothChecked data lam order spacing =
      if ConditionTolerance < conditionNumber (1 + lam • (D.transpose * D)) then
        .error (.error (.solveSystem .nearSingular))
      else Smooth data lam order spacing := by
  have hdet := system_det_ne_zero D lam hlam
  rw [SmoothChecked_of_matrix data lam order spacing D hD,
    Smooth_of_matrix data lam order spacing D hD, if_neg hdet, if_neg hdet]

/-- The entries of the system matrix for two data points, order 1 and unit spacing. -/
theorem twoPoint_entries (lam : K) :
    (1 + lam • ((bandMatrix (List.replicate 2 (1 : K)) 1 2 1).transpose
        * bandMatrix (List.replicate 2 (1 : K)) 1 2 1))
      = Matrix.of ![![1 + lam, -lam], ![-lam, 1 + lam]] := by
  ext i j
  fin_cases i <;> fin_cases j <;>
    simp [Matrix.mul_apply, Matrix.one_apply, bandMatrix, penaltyValue]

theorem rowSumNorm_two (a : Dense K 2 2) :
    rowSumNorm a = max (|a 0 0| + |a 0 1|) (max (|a 1 0| + |a 1 1|) 0) := by
  have hr : List.finRange 2 = [0, 1] := rfl
  unfold rowSumNorm
  rw [hr]
  simp [Fin.sum_univ_two]

/-- The condition number of that system is `1 + 2 * lambda`. -/
theorem twoPoint_conditionNumber (lam : K) (hlam : 0 ≤ lam) :
    conditionNumber (1 + lam • ((bandMatrix (List.replicate 2 (1 : K)) 1 2 1).transpose
        * bandMatrix (List.replicate 2 (1 : K)) 1 2 1)) = 1 + 2 * lam := by
  have hpos : (0 : K) < 1 + 2 * lam := by linarith
  have h1 : |1 + lam| = 1 + lam := abs_of_nonneg (by linarith)
  have h2 : |lam| = lam := abs_of_nonneg hlam
  have hdet : (Matrix.of ![![1 + lam, -lam], ![-lam, 1 + lam]]).det = 1 + 2 * lam := by
    rw [Matrix.det_fin_two]
    simp
    ring
  unfold conditionNumber
  rw [twoPoint_entries, hdet, rowSumNorm_two, rowSumNorm_two, Matrix.adjugate_fin_two]
  simp only [Matrix.smul_apply, Matrix.of_apply, Matrix.cons_val_zero, Matrix.cons_val_one,
    Matrix.head_cons, smul_eq_mul, abs_mul, abs_neg, neg_neg, abs_inv, h1, h2,
    abs_of_pos hpos]
  have e1 : 1 + lam + lam = 1 + 2 * lam := by ring
  have e2 : (1 + 2 * lam)⁻¹ * (1 + lam) + (1 + 2 * lam)⁻¹ * lam = 1 := by
    field_simp
    ring
  have e3 : (1 + 2 * lam)⁻¹ * lam + (1 + 2 * lam)⁻¹ * (1 + lam) = 1 := by
    field_simp
    ring
  have e4 : lam + (1 + lam) = 1 + 2 * lam := by ring
  have m1 : max (1 + 2 * lam) 0 = 1 + 2 * lam := max_eq_left hpos.le
  have m2 : max (1 : K) 0 = 1 := max_eq_left zero_le_one
  rw [e1, e2, e3, e4, m1, max_self, m2, max_self, mul_one]

/-- On two data points with order 1 and nil spacing, `SmoothChecked` reports a near-singular
system when `1 + 2 * lambda` exceeds the tolerance and otherwise returns what `Smooth`
returns. -/
theorem SmoothChecked_twoPoint (a b lam : K) (hlam : 0 ≤ lam) :
    SmoothChecked [a, b] lam 1 none =
      if (10 : K) ^ 16 < 1 + 2 * lam then .error (.error (.solveSystem .nearSingular))
      else Smooth [a, b] lam 1 none := by
  have hD := createPenaltyMatrix_eq ([a, b] : List K) (effectiveSpacing 2 none) 1
    (by decide) (by simp) (effectiveSpacing_length 2 none trivial)
    (effectiveSpacing_ne_zero 2 none trivial)
  have h := SmoothChecked_of_nonneg [a, b] lam 1 none _ hD hlam
  have hc := twoPoint_conditionNumber lam hlam
  rw [h]
  unfold ConditionTolerance
  congr 1
  exact congrArg (fun c => (10 : K) ^ 16 < c) hc

end Conditioning

section ExactReading

variable {K : Type} [LinearOrderedField K]

/-- In the exact reading (`Smooth` with the exact solve): for `1 ≤ d < n`, valid spacing and
`0 ≤ lambda1 < lambda2` both calls return, and the output for `lambda2` is not rougher than
that for `lambda1`; for unit spacing the roughness is the sum of the squared `d`-th
differences. -/
theorem exact_roughness_antitone (data : List K) (lam1 lam2 : K) (order : Int)
    (spacing : Option (List K)) (h1 : 1 ≤ order) (h2 : order < data.length)
    (hs : ValidSpacing data.length spacing) (hl1 : 0 ≤ lam1) (hl : lam1 < lam2) :
    ∃ (D : Dense K (data.length - order.toNat) data.length) (x1 x2 : List K),
      createPenaltyMatrix data (effectiveSpacing data.length spacing) order = .ok D ∧
      Smooth data lam1 order spacing = .ok x1 ∧
      Smooth data lam2 order spacing = .ok x2 ∧
      roughness D (toVec data.length x2) ≤ roughness D (toVec data.length x1) ∧
      (effectiveSpacing data.length spacing = List.replicate data.length 1 →
        ∀ v : List K, roughness D (toVec data.length v)
          = ∑ i in Finset.range (data.length - order.toNat),
              (differences order.toNat (fun k => v.getD k 0) i) ^ 2) := by
  obtain ⟨x1, hx1⟩ := Smooth_returns data lam1 order spacing h1 h2 hl1 hs
  obtain ⟨x2, hx2⟩ := Smooth_returns data lam2 order spacing h1 h2 (hl1.trans hl.le) hs
  obtain ⟨D, hD, -, hsol1, -⟩ := Smooth_ok_solves data lam1 order spacing x1 hx1
  obtain ⟨D', hD', -, hsol2, -⟩ := Smooth_ok_solves data lam2 order spacing x2 hx2
  obtain rfl : D = D' := Except.ok.inj (hD.symm.trans hD')
  refine ⟨D, x1, x2, hD, hx1, hx2,
    roughness_antitone D lam1 lam2 hl1 hl _ _ _ hsol1 hsol2, fun hunit v => ?_⟩
  have hband := createPenaltyMatrix_eq data (effectiveSpacing data.length spacing) order h1 h2
    (effectiveSpacing_length _ _ hs) (effectiveSpacing_ne_zero _ _ hs)
  obtain rfl : D = bandMatrix (effectiveSpacing data.length spacing)
      (data.length - order.toNat) data.length order.toNat :=
    Except.ok.inj (hD.symm.trans hband)
  rw [hunit]
  exact roughness_unit data.length order.toNat v

/-- In the exact reading (`Smooth` with the exact solve) and with `lambda ≥ 0`: a slice that
`Smooth` returns minimises the penalised objective, and on a valid input with `d < n` it
does return. -/
theorem exact_minimises_objective (data : List K) (lam : K) (order : Int)
    (spacing : Option (List K)) (hlam : 0 ≤ lam) :
    (∀ x : List K, Smooth data lam order spacing = .ok x →
      ∃ D : Dense K (data.length - order.toNat) data.length,
        createPenaltyMatrix data (effectiveSpacing data.length spacing) order = .ok D ∧
        ∀ z : Fin data.length → K,
          objective D lam (toVec data.length data) (toVec data.length x)
            ≤ objective D lam (toVec data.length data) z) ∧
    (1 ≤ order → order < data.length → ValidSpacing data.length spacing →
      ∃ x : List K, Smooth data lam order spacing = .ok x) := by
  refine ⟨fun x hx => ?_, fun h1 h2 hs => Smooth_returns data lam order spacing h1 h2 hlam hs⟩
  obtain ⟨D, hD, -, hsol, -⟩ := Smooth_ok_solves data lam order spacing x hx
  exact ⟨D, hD, fun z => objective_minimal D lam hlam _ _ z hsol⟩

/-- In the exact reading (`Smooth` with the exact solve): with nil spacing, `1 ≤ d < n` and
`lambda ≥ 0`, data that are the values `p(0), ..., p(n-1)` of a polynomial of degree at most
`d - 1` come back unchanged. -/
theorem exact_polynomial_fixed (data : List K) (lam : K) (d : Int) (p : Polynomial K)
    (h1 : 1 ≤ d) (h2 : d < data.length) (hlam : 0 ≤ lam)
    (hp : (p.natDegree : Int) ≤ d - 1)
    (hdata : ∀ i : Nat, i < data.length → data.getD i 0 = p.eval (i : K)) :
    Smooth data lam d none = .ok data := by
  have hD := createPenaltyMatrix_eq data (effectiveSpacing data.length none) d h1 h2
    (effectiveSpacing_length _ none trivial) (effectiveSpacing_ne_zero _ none trivial)
  refine Smooth_eq_of_solves data lam d none data _ hD hlam rfl ?_
  have hdeg : p.degree < (d.toNat : WithBot Nat) := by
    refine lt_of_le_of_lt Polynomial.degree_le_natDegree ?_
    have : p.natDegree < d.toNat := by omega
    exact_mod_cast this
  have hzero : (bandMatrix (effectiveSpacing data.length (none : Option (List K)))
      (data.length - d.toNat) data.length d.toNat).mulVec (toVec data.length data) = 0 := by
    funext i
    have hi : i.val + d.toNat < data.length := by
      have := i.isLt
      omega
    have hrow : (bandMatrix (List.replicate data.length (1 : K)) (data.length - d.toNat)
        data.length d.toNat).mulVec (toVec data.length data) i
        = ∑ j in Finset.range (d.toNat + 1),
            (d.toNat.choose j : K) * (-1) ^ j * data.getD (i.val + j) 0 :=
      bandMatrix_unit_mulVec (data.length - d.toNat) data.length d.toNat
        (fun k => data.getD k 0) i hi
    have hsum : ∑ j in Finset.range (d.toNat + 1),
          (d.toNat.choose j : K) * (-1) ^ j * data.getD (i.val + j) 0
        = ∑ j in Finset.range (d.toNat + 1),
          (d.toNat.choose j : K) * (-1) ^ j * (fun k : Nat => p.eval (k : K)) (i.val + j) := by
      refine Finset.sum_congr rfl (fun j hj => ?_)
      rw [Finset.mem_range] at hj
      rw [hdata (i.val + j) (by omega)]
    show (bandMatrix (List.replicate data.length (1 : K)) (data.length - d.toNat)
        data.length d.toNat).mulVec (toVec data.length data) i = 0
    rw [hrow, hsum, alternating_sum_eq_differences d.toNat (fun k : Nat => p.eval (k : K)) i.val,
      differences_polynomial d.toNat p hdeg, mul_zero]
  rw [system_mulVec, hzero, Matrix.mulVec_zero, smul_zero, add_zero]

/-- With exact products and quotients, multiplying the spacing by a non-zero constant leaves
the result of `createPenaltyMatrix` unchanged; the constant spacing is the unit spacing
multiplied by the constant. -/
theorem createPenaltyMatrix_scale (data : List K) (order : Int) (c : K) (hc : c ≠ 0) :
    createPenaltyMatrix data (List.replicate data.length c) order
      = createPenaltyMatrix data (List.replicate data.length 1) order ∧
    ∀ s : List K, createPenaltyMatrix data (s.map (fun v => c * v)) order
      = createPenaltyMatrix data s order := by
  have hscale : ∀ s : List K, createPenaltyMatrix data (s.map (fun v => c * v)) order
      = createPenaltyMatrix data s order :=
    fun s => createPenaltyMatrix_congr data _ s order (List.length_map s _)
      (penalty_scale s c hc order.toNat)
  refine ⟨?_, hscale⟩
  have hrep : List.replicate data.length c
      = (List.replicate data.length (1 : K)).map (fun v => c * v) := by
    rw [List.map_replicate, mul_one]
  rw [hrep]
  exact hscale _

theorem SmoothChecked_congr (data : List K) (lam : K) (order : Int)
    (sp sp' : Option (List K))
    (h : createPenaltyMatrix data (effectiveSpacing data.length sp) order
      = createPenaltyMatrix data (effectiveSpacing data.length sp') order) :
    SmoothChecked data lam order sp = SmoothChecked data lam order sp' := by
  unfold SmoothChecked
  rw [h]

/-- With `lambda ≥ 0`, after a penalty matrix has been built, `SmoothChecked` returns a slice
exactly when the condition number of the system is within the tolerance. -/
theorem SmoothChecked_returns_iff (data : List K) (lam : K) (order : Int)
    (spacing : Option (List K)) (D : Dense K (data.length - order.toNat) data.length)
    (hD : createPenaltyMatrix data (effectiveSpacing data.length spacing) order = .ok D)
    (hlam : 0 ≤ lam) :
    (∃ x : List K, SmoothChecked data lam order spacing = .ok x) ↔
      conditionNumber (1 + lam • (D.transpose * D)) ≤ ConditionTolerance := by
  rw [SmoothChecked_of_nonneg data lam order spacing D hD hlam]
  by_cases hc : ConditionTolerance < conditionNumber (1 + lam • (D.transpose * D))
  · rw [if_pos hc]
    constructor
    · rintro ⟨x, hx⟩
      cases hx
    · intro hle
      exact absurd hc (not_lt.mpr hle)
  · rw [if_neg hc]
    refine ⟨fun _ => not_lt.mp hc, fun _ => ?_⟩
    rw [Smooth_of_matrix data lam order spacing D hD, if_neg (system_det_ne_zero D lam hlam)]
    exact ⟨_, rfl⟩

end ExactReading

section Float64

/-- Rounding at a half: `1.5` lies midway between `1` and `2` and goes to the even one. -/
theorem roundHalfEven_three_halves : roundHalfEven (3 / 2) = 2 := by
  have hfloor : ⌊(3 / 2 : ℚ)⌋ = 1 := by
    rw [Int.floor_eq_iff]
    norm_num
  unfold roundHalfEven
  rw [hfloor]
  norm_num

theorem roundHalfEven_one : roundHalfEven 1 = 1 := by
  unfold roundHalfEven
  rw [Int.floor_one]
  norm_num

/-- Below `2^-1022` the `float64` values are the multiples of `2^-1074`: a positive rational
below `2^-1022` rounds to the nearest multiple. -/
theorem round64_subnormal (x : ℚ) (r : Int) (h0 : 0 < x) (h1 : x < 2 ^ (-1022 : Int))
    (hr : roundHalfEven (x / 2 ^ (-1074 : Int)) = r) (hr0 : 0 ≤ r) (hr1 : r ≤ 2) :
    round64 x = .ok ((r : ℚ) * 2 ^ (-1074 : Int)) := by
  have hlog : Int.log 2 |x| < -1022 := by
    rw [abs_of_pos h0, ← Int.lt_zpow_iff_log_lt (by norm_num) h0]
    exact_mod_cast h1
  have hmax : max (Int.log 2 |x|) (-1022) - 52 = -1074 := by
    rw [max_eq_right hlog.le]
    norm_num
  have hq : (0 : ℚ) ≤ (r : ℚ) * 2 ^ (-1074 : Int) :=
    mul_nonneg (by exact_mod_cast hr0) (by positivity)
  have hsmall : (r : ℚ) * 2 ^ (-1074 : Int) < 2 ^ 1024 := by
    have h2 : (r : ℚ) ≤ 2 := by exact_mod_cast hr1
    have h3 : (2 : ℚ) ^ (-1074 : Int) ≤ 1 :=
      zpow_le_one_of_nonpos₀ (by norm_num) (by norm_num)
    have h4 : (0 : ℚ) ≤ 2 ^ (-1074 : Int) := by positivity
    calc (r : ℚ) * 2 ^ (-1074 : Int) ≤ 2 * 1 := mul_le_mul h2 h3 h4 (by norm_num)
      _ < 2 ^ 1024 := by norm_num
  unfold round64
  rw [if_neg h0.ne', hmax, hr, abs_of_nonneg hq, if_neg (not_le.mpr hsmall)]

/-- The least positive `float64`, `2^-1074`, times `1` is itself. -/
theorem mul64_least_one : mul64 (2 ^ (-1074 : Int)) 1 = .ok (2 ^ (-1074 : Int)) := by
  have h := round64_subnormal (2 ^ (-1074 : Int)) 1 (by positivity)
    (zpow_lt_zpow_right₀ (by norm_num) (by norm_num))
    (by rw [div_self (by positivity)]; exact roundHalfEven_one) (by norm_num) (by norm_num)
  unfold mul64
  rw [mul_one, h]
  norm_num

/-- The least positive `float64`, `2^-1074`, times `1.5` lies midway between `2^-1074` and
`2^-1073` and rounds to the even multiple, `2^-1073`: the product is twice, not one and a half
times, the least positive `float64`. -/
theorem mul64_least_three_halves :
    mul64 (2 ^ (-1074 : Int)) (3 / 2) = .ok (2 ^ (-1073 : Int)) := by
  have hx : (0 : ℚ) < 2 ^ (-1074 : Int) := by positivity
  have h := round64_subnormal (2 ^ (-1074 : Int) * (3 / 2)) 2 (by positivity)
    (by
      have e : (2 : ℚ) ^ (-1022 : Int) = 2 ^ (-1074 : Int) * 2 ^ (52 : Int) := by
        rw [← zpow_add₀ (by norm_num : (2 : ℚ) ≠ 0)]
        norm_num
      rw [e]
      exact mul_lt_mul_of_pos_left (by norm_num) hx)
    (by rw [mul_div_assoc, mul_comm, div_mul_cancel₀ _ hx.ne']
        exact roundHalfEven_three_halves) (by norm_num) (by norm_num)
  unfold mul64
  rw [h]
  congr 1
  have e : (2 : ℚ) ^ (-1073 : Int) = 2 ^ (1 : Int) * 2 ^ (-1074 : Int) := by
    rw [← zpow_add₀ (by norm_num : (2 : ℚ) ≠ 0)]
    norm_num
  rw [e]
  norm_num

/-- The spacing `[1, 1.5, 1]` multiplied entry by entry by the least positive `float64`. -/
theorem scale64_least :
    scale64 (2 ^ (-1074 : Int)) [1, 3 / 2, 1]
      = .ok [2 ^ (-1074 : Int), 2 ^ (-1073 : Int), 2 ^ (-1074 : Int)] := by
  unfold scale64
  simp only [List.mapM_cons, List.mapM_nil, mul64_least_one, mul64_least_three_halves,
    bind_ok_eq, pure_eq_ok]

/-- Three data points, second differences, spacing `[1, 1.5, 1]`, `lambda = 1`. -/
theorem Smooth_three_points :
    Smooth ([1, 2, 4] : List ℚ) 1 2 (some [1, 3 / 2, 1])
      = .ok [22 / 43, 114 / 43, 151 / 43] := by
  have hs : ValidSpacing 3 (some ([1, 3 / 2, 1] : List ℚ)) := ⟨rfl, by norm_num⟩
  have hD := createPenaltyMatrix_eq ([1, 2, 4] : List ℚ)
    (effectiveSpacing 3 (some [1, 3 / 2, 1])) 2 (by decide) (by decide)
    (effectiveSpacing_length 3 _ hs) (effectiveSpacing_ne_zero 3 _ hs)
  refine Smooth_eq_of_solves _ _ _ _ _ _ hD (by norm_num) rfl ?_
  funext i
  fin_cases i <;>
    simp [Matrix.mulVec, Matrix.dotProduct, Fin.sum_univ_succ, Matrix.mul_apply,
      Matrix.one_apply, bandMatrix, penaltyValue, toVec, effectiveSpacing] <;>
    norm_num

/-- Three data points, second differences, spacing `[1, 2, 1]`, `lambda = 1`. -/
theorem Smooth_three_points_doubled :
    Smooth ([1, 2, 4] : List ℚ) 1 2 (some [1, 2, 1]) = .ok [1 / 4, 11 / 4, 13 / 4] := by
  have hs : ValidSpacing 3 (some ([1, 2, 1] : List ℚ)) := ⟨rfl, by norm_num⟩
  have hD := createPenaltyMatrix_eq ([1, 2, 4] : List ℚ)
    (effectiveSpacing 3 (some [1, 2, 1])) 2 (by decide) (by decide)
    (effectiveSpacing_length 3 _ hs) (effectiveSpacing_ne_zero 3 _ hs)
  refine Smooth_eq_of_solves _ _ _ _ _ _ hD (by norm_num) rfl ?_
  funext i
  fin_cases i <;>
    simp [Matrix.mulVec, Matrix.dotProduct, Fin.sum_univ_succ, Matrix.mul_apply,
      Matrix.one_apply, bandMatrix, penaltyValue, toVec, effectiveSpacing] <;>
    norm_num

/-- The spacing `[2^-1074, 2^-1073, 2^-1074]` has the ratios of `[1, 2, 1]`. -/
theorem Smooth_three_points_least :
    Smooth ([1, 2, 4] : List ℚ) 1 2
      (some [2 ^ (-1074 : Int), 2 ^ (-1073 : Int), 2 ^ (-1074 : Int)])
      = .ok [1 / 4, 11 / 4, 13 / 4] := by
  have e : (2 : ℚ) ^ (-1073 : Int) = 2 ^ (-1074 : Int) * 2 := by
    rw [← zpow_add_one₀ (by norm_num : (2 : ℚ) ≠ 0)]
    norm_num
  have hlist : ([2 ^ (-1074 : Int), 2 ^ (-1073 : Int), 2 ^ (-1074 : Int)] : List ℚ)
      = ([1, 2, 1] : List ℚ).map (fun v => 2 ^ (-1074 : Int) * v) := by
    simp [e]
  rw [hlist, ← Smooth_three_points_doubled]
  exact Smooth_congr _ _ _ _ _
    ((createPenaltyMatrix_scale _ _ _ (by positivity)).2 _)

end Float64

/-! ## The claims -/

section Claims

variable {K : Type} [LinearOrderedField K]

/-- C1: for data of length `n`, order `1 ≤ d < n`, `lambda ≥ 0` and spacing absent or of
length `n` with positive entries, `Smooth` returns a slice `x` of length `n` with
`(I + lambda * DᵀD) x = data`, where `D` is the matrix built by `createPenaltyMatrix`, and
`x` is the only vector with that property. -/
theorem Smooth_solves_system (data : List K) (lam : K) (order : Int)
    (spacing : Option (List K)) (h1 : 1 ≤ order) (h2 : order < data.length) (hlam : 0 ≤ lam)
    (hs : ValidSpacing data.length spacing) :
    ∃ (D : Dense K (data.length - order.toNat) data.length) (x : List K),
      createPenaltyMatrix data (effectiveSpacing data.length spacing) order = .ok D ∧
      Smooth data lam order spacing = .ok x ∧
      x.length = data.length ∧
      (1 + lam • (D.transpose * D)).mulVec (toVec data.length x) = toVec data.length data ∧
      ∀ z : Fin data.length → K,
        (1 + lam • (D.transpose * D)).mulVec z = toVec data.length data →
        z = toVec data.length x := by
  obtain ⟨x, hx⟩ := Smooth_returns data lam order spacing h1 h2 hlam hs
  obtain ⟨D, hD, hrest⟩ := Smooth_ok_solves data lam order spacing x hx
  exact ⟨D, x, hD, hx, hrest⟩

theorem Smooth_solves_system_witness :
    ((1 : Int) ≤ 2 ∧ (2 : Int) < sampleData.length ∧ (0 : ℚ) ≤ 20 ∧
      ValidSpacing sampleData.length (some sampleSpacing)) ∧
    ∃ (D : Dense ℚ 2 4) (x : List ℚ),
      createPenaltyMatrix sampleData (effectiveSpacing 4 (some sampleSpacing)) 2
        = .ok D ∧
      Smooth sampleData 20 2 (some sampleSpacing) = .ok x ∧
      x.length = 4 ∧
      (1 + (20 : ℚ) • (D.transpose * D)).mulVec (toVec 4 x) = toVec 4 sampleData ∧
      ∀ z : Fin 4 → ℚ,
        (1 + (20 : ℚ) • (D.transpose * D)).mulVec z = toVec 4 sampleData → z = toVec 4 x :=
  have hs : ValidSpacing sampleData.length (some sampleSpacing) :=
    ⟨rfl, by simp [sampleSpacing]⟩
  ⟨⟨by decide, by decide, by norm_num, hs⟩,
    Smooth_solves_system sampleData 20 2 (some sampleSpacing) (by decide)
      (by decide) (by norm_num) hs⟩

/-- C2, at one data point and order 1: `Smooth([1], 0, 1, nil)` does not return the data;
the allocation of the `0 × 1` penalty matrix panics. -/
theorem Smooth_zero_lambda_square_panics :
    Smooth ([1] : List ℚ) 0 1 none = .error (.panic .zeroLength) :=
  Smooth_square ([1] : List ℚ) 0 1 none (by decide) rfl trivial

/-- C3: whenever `order < 1`, whatever the data, `lambda` and spacing (absent or of any
length), `Smooth` returns the error "order must be at least 1" wrapped as a failure to
create the penalty matrix, and no slice. -/
theorem Smooth_invalid_order (data : List K) (lam : K) (order : Int)
    (spacing : Option (List K)) (h : order < 1) :
    Smooth data lam order spacing = .error (.error (.penaltyMatrix .orderTooSmall)) ∧
    (Error.penaltyMatrix .orderTooSmall).message
      = "failed to create penalty matrix: order must be at least 1" :=
  ⟨Smooth_of_penalty_error data lam order spacing _ (createPenaltyMatrix_order _ _ _ h), rfl⟩

theorem Smooth_invalid_order_witness :
    (0 : Int) < 1 ∧
    Smooth testData 20 0 none = .error (.error (.penaltyMatrix .orderTooSmall)) ∧
    (Error.penaltyMatrix .orderTooSmall).message
      = "failed to create penalty matrix: order must be at least 1" :=
  ⟨by decide, Smooth_invalid_order testData 20 0 none (by decide)⟩

/-- C4 as stated fails: on the input of the test case "invalid: len(spacing) != len(data)"
(ten data points, order 13, a spacing slice of length 1) `Smooth` reports the
spacing-length mismatch, not the insufficient data. -/
theorem Smooth_short_data_reports_spacing :
    (testData.length : Int) < 13 ∧
    Smooth testData 200 13 (some [1])
      = .error (.error (.penaltyMatrix .spacingLength)) ∧
    Smooth testData 200 13 (some [1])
      ≠ .error (.error (.penaltyMatrix .dataTooShort)) := by
  have h : Smooth testData 200 13 (some [1])
      = .error (.error (.penaltyMatrix .spacingLength)) :=
    Smooth_of_penalty_error _ _ _ _ _
      (createPenaltyMatrix_spacing _ _ _ (by decide) (by decide))
  refine ⟨by decide, h, ?_⟩
  rw [h]
  exact fun hne => by cases hne

/-- C4, amended: when `len(data) < order`, `Smooth` fails with the insufficient-data error
(wrapped) if the spacing is absent or as long as the data, and with the spacing-length error
(wrapped) if a spacing of another length is supplied. -/
theorem Smooth_short_data (data : List K) (lam : K) (order : Int)
    (hn : (data.length : Int) < order) :
    Smooth data lam order none = .error (.error (.penaltyMatrix .dataTooShort)) ∧
    (∀ s : List K, s.length = data.length →
      Smooth data lam order (some s) = .error (.error (.penaltyMatrix .dataTooShort))) ∧
    (∀ s : List K, s.length ≠ data.length →
      Smooth data lam order (some s) = .error (.error (.penaltyMatrix .spacingLength))) ∧
    (Error.penaltyMatrix .dataTooShort).message
      = "failed to create penalty matrix: data slice must be at least as long as order" := by
  have h1 : 1 ≤ order := by omega
  refine ⟨?_, ?_, ?_, rfl⟩
  · exact Smooth_of_penalty_error _ _ _ _ _
      (createPenaltyMatrix_short _ _ _ (effectiveSpacing_length _ none trivial) hn)
  · intro s hs
    exact Smooth_of_penalty_error _ _ _ _ _ (createPenaltyMatrix_short _ _ _ hs hn)
  · intro s hs
    exact Smooth_of_penalty_error _ _ _ _ _ (createPenaltyMatrix_spacing _ _ _ h1 hs)

theorem Smooth_short_data_witness :
    (testData.length : Int) < 13 ∧
    (Smooth testData 200 13 none = .error (.error (.penaltyMatrix .dataTooShort)) ∧
    (∀ s : List ℚ, s.length = testData.length →
      Smooth testData 200 13 (some s) = .error (.error (.penaltyMatrix .dataTooShort))) ∧
    (∀ s : List ℚ, s.length ≠ testData.length →
      Smooth testData 200 13 (some s) = .error (.error (.penaltyMatrix .spacingLength))) ∧
    (Error.penaltyMatrix .dataTooShort).message
      = "failed to create penalty matrix: data slice must be at least as long as order") :=
  ⟨by decide, Smooth_short_data testData 200 13 (by decide)⟩

/-- C5 as stated fails: with order 0 and a spacing slice of another length than the data,
`Smooth` reports the invalid order, not the spacing-length mismatch. -/
theorem Smooth_spacing_mismatch_reports_order :
    ([1] : List ℚ).length ≠ ([1, 2] : List ℚ).length ∧
    Smooth ([1, 2] : List ℚ) 200 0 (some [1])
      = .error (.error (.penaltyMatrix .orderTooSmall)) ∧
    Smooth ([1, 2] : List ℚ) 200 0 (some [1])
      ≠ .error (.error (.penaltyMatrix .spacingLength)) := by
  have h : Smooth ([1, 2] : List ℚ) 200 0 (some [1])
      = .error (.error (.penaltyMatrix .orderTooSmall)) :=
    Smooth_of_penalty_error _ _ _ _ _ (createPenaltyMatrix_order _ _ _ (by decide))
  refine ⟨by decide, h, ?_⟩
  rw [h]
  exact fun hne => by cases hne

/-- C5, amended: when a spacing slice of another length than the data is supplied and
`order ≥ 1`, `Smooth` fails with the spacing-length error (wrapped), whatever `lambda`. -/
theorem Smooth_spacing_mismatch (data : List K) (lam : K) (order : Int) (s : List K)
    (h1 : 1 ≤ order) (hs : s.length ≠ data.length) :
    Smooth data lam order (some s) = .error (.error (.penaltyMatrix .spacingLength)) ∧
    (Error.penaltyMatrix .spacingLength).message
      = "failed to create penalty matrix: spacing slice must be the same length as data slice" :=
  ⟨Smooth_of_penalty_error _ _ _ _ _ (createPenaltyMatrix_spacing _ _ _ h1 hs), rfl⟩

theorem Smooth_spacing_mismatch_witness :
    ((1 : Int) ≤ 13 ∧ ([1] : List ℚ).length ≠ testData.length) ∧
    Smooth testData 200 13 (some [1])
      = .error (.error (.penaltyMatrix .spacingLength)) ∧
    (Error.penaltyMatrix .spacingLength).message
      = "failed to create penalty matrix: spacing slice must be the same length as data slice" :=
  ⟨⟨by decide, by decide⟩,
    Smooth_spacing_mismatch testData 200 13 [1] (by decide) (by decide)⟩

/-- C6 as stated fails: on two data points with order 1 the empty non-nil spacing is
rejected for its length, while the nil spacing is accepted and the call returns. -/
theorem Smooth_empty_spacing_differs :
    Smooth ([1, 2] : List ℚ) 0 1 (some [])
      = .error (.error (.penaltyMatrix .spacingLength)) ∧
    Smooth ([1, 2] : List ℚ) 0 1 none = .ok [1, 2] ∧
    Smooth ([1, 2] : List ℚ) 0 1 (some []) ≠ Smooth ([1, 2] : List ℚ) 0 1 none := by
  have h : Smooth ([1, 2] : List ℚ) 0 1 (some [])
      = .error (.error (.penaltyMatrix .spacingLength)) :=
    Smooth_of_penalty_error _ _ _ _ _
      (createPenaltyMatrix_spacing _ _ _ (by decide) (by decide))
  have h' : Smooth ([1, 2] : List ℚ) 0 1 none = .ok [1, 2] :=
    Smooth_zero _ _ _ (by decide) (by decide) trivial
  refine ⟨h, h', ?_⟩
  rw [h, h']
  exact fun hne => by cases hne

/-- C6, amended: for data of length `n ≥ 1` an empty non-nil spacing slice does not mean
unit spacing: the call fails with the spacing-length error (wrapped) when `order ≥ 1` and
with the invalid-order error (wrapped) when `order < 1`, and it agrees with the call with
nil spacing exactly when `order < 1`. -/
theorem Smooth_empty_spacing (data : List K) (lam : K) (order : Int) (hn : 1 ≤ data.length) :
    Smooth data lam order (some []) = .error (.error (.penaltyMatrix
      (if order < 1 then .orderTooSmall else .spacingLength))) ∧
    (Smooth data lam order (some []) = Smooth data lam order none ↔ order < 1) := by
  by_cases h0 : order < 1
  · have ha := Smooth_of_penalty_error data lam order (some []) _
      (createPenaltyMatrix_order _ _ _ h0)
    have hb := Smooth_of_penalty_error data lam order none _
      (createPenaltyMatrix_order _ _ _ h0)
    rw [if_pos h0]
    exact ⟨ha, fun _ => h0, fun _ => ha.trans hb.symm⟩
  · have h1 : 1 ≤ order := not_lt.mp h0
    have hs : ([] : List K).length ≠ data.length := by
      simp only [List.length_nil]
      omega
    have ha := Smooth_of_penalty_error data lam order (some []) _
      (createPenaltyMatrix_spacing _ _ _ h1 hs)
    rw [if_neg h0]
    refine ⟨ha, fun heq => ?_, fun h => absurd h h0⟩
    exfalso
    rw [ha] at heq
    rcases lt_trichotomy order (data.length : Int) with hlt | heq' | hgt
    · have hD := createPenaltyMatrix_eq data (effectiveSpacing data.length none) order h1 hlt
        (effectiveSpacing_length _ none trivial) (effectiveSpacing_ne_zero _ none trivial)
      rw [Smooth_of_matrix data lam order none _ hD] at heq
      split at heq <;> cases heq
    · rw [Smooth_square data lam order none h1 heq'.symm trivial] at heq
      cases heq
    · rw [Smooth_of_penalty_error data lam order none _ (createPenaltyMatrix_short _ _ _
        (effectiveSpacing_length _ none trivial) hgt)] at heq
      cases heq

theorem Smooth_empty_spacing_witness :
    1 ≤ ([1, 2] : List ℚ).length ∧
    Smooth ([1, 2] : List ℚ) 5 1 (some []) = .error (.error (.penaltyMatrix
      (if (1 : Int) < 1 then .orderTooSmall else .spacingLength))) ∧
    (Smooth ([1, 2] : List ℚ) 5 1 (some []) = Smooth ([1, 2] : List ℚ) 5 1 none ↔
      (1 : Int) < 1) :=
  ⟨by decide, Smooth_empty_spacing ([1, 2] : List ℚ) 5 1 (by decide)⟩

/-- C7: for every `lambda ≥ 0` and every penalty matrix `D` that `createPenaltyMatrix`
returns, the system matrix assembled in `Smooth` is `I + lambda * DᵀD`; it is symmetric and
positive-definite (`vᵀ A v > 0` for every non-zero `v`), hence its determinant is not zero,
so the solve step succeeds and `Smooth` returns its solution. -/
theorem systemMatrix_positive_definite (data : List K) (lam : K) (order : Int)
    (spacing : Option (List K)) (D : Dense K (data.length - order.toNat) data.length)
    (hD : createPenaltyMatrix data (effectiveSpacing data.length spacing) order = .ok D)
    (hlam : 0 ≤ lam) :
    systemMatrix data.length lam D = .ok (1 + lam • (D.transpose * D)) ∧
    (1 + lam • (D.transpose * D)).transpose = 1 + lam • (D.transpose * D) ∧
    (∀ v : Fin data.length → K, v ≠ 0 →
      0 < Matrix.dotProduct v ((1 + lam • (D.transpose * D)).mulVec v)) ∧
    (1 + lam • (D.transpose * D)).det ≠ 0 ∧
    ∃ x : Fin data.length → K,
      SolveVec (1 + lam • (D.transpose * D)) (toVec data.length data) = .ok x ∧
      Smooth data lam order spacing = .ok (List.ofFn x) := by
  have hn : data.length ≠ 0 := by
    obtain ⟨h1, -, h2⟩ := createPenaltyMatrix_ok_inv _ _ _ _ hD
    omega
  have hdet := system_det_ne_zero D lam hlam
  refine ⟨systemMatrix_eq _ hn lam D, system_symmetric D lam, system_posDef D lam hlam, hdet,
    _, SolveVec_regular _ _ hdet, ?_⟩
  rw [Smooth_of_matrix data lam order spacing D hD, if_neg hdet]

theorem systemMatrix_positive_definite_witness :
    (createPenaltyMatrix sampleData (effectiveSpacing 4 (some sampleSpacing)) 2
        = .ok sampleMatrix ∧ (0 : ℚ) ≤ 20) ∧
    (systemMatrix 4 (20 : ℚ) sampleMatrix = .ok sampleSystem ∧
    sampleSystem.transpose = sampleSystem ∧
    (∀ v : Fin 4 → ℚ, v ≠ 0 → 0 < Matrix.dotProduct v (sampleSystem.mulVec v)) ∧
    sampleSystem.det ≠ 0 ∧
    ∃ x : Fin 4 → ℚ,
      SolveVec sampleSystem (toVec 4 sampleData) = .ok x ∧
      Smooth sampleData 20 2 (some sampleSpacing) = .ok (List.ofFn x)) :=
  have hs : ValidSpacing sampleData.length (some sampleSpacing) :=
    ⟨rfl, by simp [sampleSpacing]⟩
  have hD : createPenaltyMatrix sampleData (effectiveSpacing 4 (some sampleSpacing)) 2
      = .ok sampleMatrix :=
    createPenaltyMatrix_eq sampleData (effectiveSpacing 4 (some sampleSpacing)) 2
      (by decide) (by decide) (effectiveSpacing_length _ _ hs)
      (effectiveSpacing_ne_zero _ _ hs)
  ⟨⟨hD, by norm_num⟩,
    systemMatrix_positive_definite sampleData 20 2 (some sampleSpacing) sampleMatrix hD
      (by norm_num)⟩

/-- C9: whenever `Smooth` returns without error, the returned slice has exactly the length
of the data; and on a valid input with `d < n` and `lambda ≥ 0` it does return. -/
theorem Smooth_length (data : List K) (lam : K) (order : Int) (spacing : Option (List K)) :
    (∀ x : List K, Smooth data lam order spacing = .ok x → x.length = data.length) ∧
    (1 ≤ order → order < data.length → 0 ≤ lam → ValidSpacing data.length spacing →
      ∃ x : List K, Smooth data lam order spacing = .ok x ∧ x.length = data.length) := by
  have hlen : ∀ x : List K, Smooth data lam order spacing = .ok x → x.length = data.length :=
    fun x hx => by
      obtain ⟨D, -, h, -⟩ := Smooth_ok_solves data lam order spacing x hx
      exact h
  refine ⟨hlen, fun h1 h2 hlam hs => ?_⟩
  obtain ⟨x, hx⟩ := Smooth_returns data lam order spacing h1 h2 hlam hs
  exact ⟨x, hx, hlen x hx⟩

theorem Smooth_length_witness :
    Smooth ([1, 2] : List ℚ) 1 1 none = .ok [4 / 3, 5 / 3] ∧
    ([4 / 3, 5 / 3] : List ℚ).length = ([1, 2] : List ℚ).length ∧
    ∃ x : List ℚ, Smooth sampleData 20 2 (some sampleSpacing) = .ok x ∧
      x.length = sampleData.length :=
  ⟨Smooth_two_points,
    (Smooth_length ([1, 2] : List ℚ) 1 1 none).1 _ Smooth_two_points,
    (Smooth_length sampleData 20 2 (some sampleSpacing)).2 (by decide) (by decide)
      (by norm_num) ⟨rfl, by simp [sampleSpacing]⟩⟩

/-- C11: on the ten test data points with `lambda = 200`, `order = 3` and no spacing,
`Smooth` succeeds, returns ten values, and each of them is `within` 0.01 percent of the
value that the test wants. -/
theorem Smooth_test_order_three :
    Smooth testData 200 3 none = .ok testOutput ∧
    testOutput.length = testWant.length ∧
    ∀ i : Nat, i < testOutput.length →
      within (testOutput.getD i 0) (testWant.getD i 0) 0.01 = true :=
  ⟨Smooth_testData_order_three, rfl, fun i hi => testOutput_within i hi⟩

/-- C12: for data of length `n`, spacing of length `n` without zero entry and `1 ≤ d < n`,
`createPenaltyMatrix` returns an `(n-d) × n` matrix `D` with
`D[i][i+j] = (-1)^j * C(d, j)` for `0 ≤ j ≤ d`, multiplied by
`spacing[i+j-1] / spacing[i+j]` exactly when `0 < j < d`, and zero outside the band. -/
theorem createPenaltyMatrix_entries (data spacing : List K) (d : Int) (h1 : 1 ≤ d)
    (h2 : d < data.length) (hs : spacing.length = data.length)
    (hnz : ∀ v ∈ spacing, v ≠ 0) :
    ∃ D : Dense K (data.length - d.toNat) data.length,
      createPenaltyMatrix data spacing d = .ok D ∧
      (∀ (i : Fin (data.length - d.toNat)) (j : Nat), j ≤ d.toNat →
        ∃ hk : i.val + j < data.length,
          D i ⟨i.val + j, hk⟩ = (-1) ^ j * (d.toNat.choose j : K) *
            (if 0 < j ∧ j < d.toNat then
              spacing.getD (i.val + j - 1) 0 / spacing.getD (i.val + j) 0
            else 1)) ∧
      (∀ (i : Fin (data.length - d.toNat)) (k : Fin data.length),
        ¬ (i.val ≤ k.val ∧ k.val ≤ i.val + d.toNat) → D i k = 0) := by
  refine ⟨_, createPenaltyMatrix_eq data spacing d h1 h2 hs hnz, ?_, ?_⟩
  · intro i j hj
    have hk : i.val + j < data.length := by
      have := i.isLt
      omega
    refine ⟨hk, ?_⟩
    have hc : i.val ≤ i.val + j ∧ i.val + j ≤ i.val + d.toNat := by omega
    have hsub : i.val + j - i.val = j := by omega
    unfold bandMatrix penaltyValue
    simp only [if_pos hc, hsub]
    by_cases hm : 0 < j ∧ j < d.toNat
    · rw [if_pos hm, if_pos hm]
      ring
    · rw [if_neg hm, if_neg hm]
      ring
  · intro i k hc
    unfold bandMatrix
    rw [if_neg hc]

theorem createPenaltyMatrix_entries_witness :
    ((1 : Int) ≤ 2 ∧ (2 : Int) < sampleData.length ∧
      sampleSpacing.length = sampleData.length ∧ ∀ v ∈ sampleSpacing, v ≠ 0) ∧
    ∃ D : Dense ℚ 2 4,
      createPenaltyMatrix sampleData sampleSpacing 2 = .ok D ∧
      (∀ (i : Fin 2) (j : Nat), j ≤ 2 →
        ∃ hk : i.val + j < 4,
          D i ⟨i.val + j, hk⟩ = (-1) ^ j * (Nat.choose 2 j : ℚ) *
            (if 0 < j ∧ j < 2 then
              sampleSpacing.getD (i.val + j - 1) 0 / sampleSpacing.getD (i.val + j) 0
            else 1)) ∧
      (∀ (i : Fin 2) (k : Fin 4), ¬ (i.val ≤ k.val ∧ k.val ≤ i.val + 2) → D i k = 0) :=
  have hnz : ∀ v ∈ sampleSpacing, v ≠ 0 := by simp [sampleSpacing]
  ⟨⟨by decide, by decide, rfl, hnz⟩,
    createPenaltyMatrix_entries sampleData sampleSpacing 2 (by decide) (by decide) rfl hnz⟩

/-- C13, with as many data points as the order: `createPenaltyMatrix([1], [1], 1)` passes
the three checks (`d ≥ 1`, equal lengths, `n ≥ d`) and yet returns no matrix; the
allocation of the `0 × 1` matrix panics. -/
theorem createPenaltyMatrix_square_panics :
    ¬ ((1 : Int) < 1) ∧ ([1] : List ℚ).length = ([1] : List ℚ).length ∧
    ¬ ((([1] : List ℚ).length : Int) < 1) ∧
    createPenaltyMatrix ([1] : List ℚ) [1] 1 = .error (.panic .zeroLength) :=
  ⟨by decide, rfl, by decide,
    createPenaltyMatrix_square ([1] : List ℚ) [1] 1 (by decide) rfl rfl⟩

/-- C14, at three data points and order 3: `Smooth([1, 2, 3], 20, 3, nil)` does not return
the data; the allocation of the `0 × 3` penalty matrix panics. -/
theorem Smooth_square_panics :
    (([1, 2, 3] : List ℚ).length : Int) = 3 ∧
    Smooth ([1, 2, 3] : List ℚ) 20 3 none = .error (.panic .zeroLength) ∧
    Smooth ([1, 2, 3] : List ℚ) 20 3 none ≠ .ok [1, 2, 3] := by
  have h : Smooth ([1, 2, 3] : List ℚ) 20 3 none = .error (.panic .zeroLength) :=
    Smooth_square ([1, 2, 3] : List ℚ) 20 3 none (by decide) rfl trivial
  refine ⟨rfl, h, ?_⟩
  rw [h]
  exact fun hne => by cases hne

/-- C15: for unit spacing and `1 ≤ d < n`, `createPenaltyMatrix` returns a matrix `D` whose
rows compute the `d`-th difference: for every slice `x` and every row `i`,
`(D x)[i] = sum_{j=0..d} (-1)^j * C(d,j) * x[i+j] = (-1)^d * (Δ^d x)[i]`, with `Δ` the forward
first difference. -/
theorem createPenaltyMatrix_unit_differences (data : List K) (d : Int) (h1 : 1 ≤ d)
    (h2 : d < data.length) :
    ∃ D : Dense K (data.length - d.toNat) data.length,
      createPenaltyMatrix data (List.replicate data.length 1) d = .ok D ∧
      ∀ (x : List K) (i : Fin (data.length - d.toNat)),
        D.mulVec (toVec data.length x) i
          = ∑ j in Finset.range (d.toNat + 1),
              (-1) ^ j * (d.toNat.choose j : K) * x.getD (i.val + j) 0 ∧
        D.mulVec (toVec data.length x) i
          = (-1) ^ d.toNat * differences d.toNat (fun k => x.getD k 0) i.val := by
  have hD := createPenaltyMatrix_eq data (effectiveSpacing data.length none) d h1 h2
    (effectiveSpacing_length _ none trivial) (effectiveSpacing_ne_zero _ none trivial)
  refine ⟨_, hD, fun x i => ?_⟩
  have hi : i.val + d.toNat < data.length := by
    have := i.isLt
    omega
  have hrow : (bandMatrix (List.replicate data.length (1 : K)) (data.length - d.toNat)
      data.length d.toNat).mulVec (toVec data.length x) i
      = ∑ j in Finset.range (d.toNat + 1),
          (d.toNat.choose j : K) * (-1) ^ j * x.getD (i.val + j) 0 :=
    bandMatrix_unit_mulVec (data.length - d.toNat) data.length d.toNat
      (fun k => x.getD k 0) i hi
  constructor
  · refine hrow.trans (Finset.sum_congr rfl (fun j _ => ?_))
    ring
  · exact hrow.trans (alternating_sum_eq_differences d.toNat (fun k => x.getD k 0) i.val)

theorem createPenaltyMatrix_unit_differences_witness :
    ((1 : Int) ≤ 2 ∧ (2 : Int) < sampleData.length) ∧
    ∃ D : Dense ℚ 2 4,
      createPenaltyMatrix sampleData (List.replicate 4 1) 2 = .ok D ∧
      ∀ (x : List ℚ) (i : Fin 2),
        D.mulVec (toVec 4 x) i
          = ∑ j in Finset.range 3, (-1) ^ j * (Nat.choose 2 j : ℚ) * x.getD (i.val + j) 0 ∧
        D.mulVec (toVec 4 x) i = (-1) ^ 2 * differences 2 (fun k => x.getD k 0) i.val :=
  ⟨⟨by decide, by decide⟩,
    createPenaltyMatrix_unit_differences sampleData 2 (by decide) (by decide)⟩

/-- C17: on an input that passes the three checks (`d ≥ 1`, `len(spacing) = len(data) = n`,
`n ≥ d`), at every step `i < n-d`, `j ≤ d` of the fill loop the guard `i+j < n` holds, the
reads `spacing[i+j-1]` and `spacing[i+j]` (made when `0 < j < d`) are in range with
`i+j-1 ≥ 0`, and `D.Set(i, i+j, ...)` is in range, so the cell is computed and set; the loop
as a whole does not panic. -/
theorem fill_loop_in_bounds (data spacing : List K) (d : Int) (h1 : 1 ≤ d)
    (hs : spacing.length = data.length) (hn : d ≤ data.length) :
    (∀ i j : Nat, i < data.length - d.toNat → j ≤ d.toNat →
      i + j < data.length ∧
      (0 < j → j < d.toNat →
        1 ≤ i + j ∧ (∃ a, index spacing (i + j - 1) = .ok a) ∧
          ∃ b, index spacing (i + j) = .ok b) ∧
      ∀ E : Dense K (data.length - d.toNat) data.length,
        (∀ v : K, ∃ E', E.Set i (i + j) v = .ok E') ∧
        fillCell spacing data.length d.toNat i E j
          = (penalty spacing d.toNat i j >>= fun p => E.Set i (i + j) p)) ∧
    ∀ (E : Dense K (data.length - d.toNat) data.length) (p : Panic),
      fillRows spacing data.length d.toNat E ≠ .error (.panic p) := by
  constructor
  · intro i j hi hj
    have hij : i + j < data.length := by omega
    refine ⟨hij, fun hj0 hjd => ⟨by omega, ⟨_, index_eq spacing (i + j - 1) (by omega)⟩,
      ⟨_, index_eq spacing (i + j) (by omega)⟩⟩, fun E => ⟨fun v => ?_, ?_⟩⟩
    · exact Set_ok E i (i + j) v hi hij
    · exact fillCell_guard spacing data.length d.toNat i j E hij
  · intro E p
    exact (fillRows_safe spacing d.toNat E rfl (le_of_eq hs.symm)).not_panic p

theorem fill_loop_in_bounds_witness :
    ((1 : Int) ≤ 2 ∧ sampleSpacing.length = sampleData.length ∧
      (2 : Int) ≤ sampleData.length) ∧
    ((∀ i j : Nat, i < 2 → j ≤ 2 →
      i + j < 4 ∧
      (0 < j → j < 2 →
        1 ≤ i + j ∧ (∃ a, index sampleSpacing (i + j - 1) = .ok a) ∧
          ∃ b, index sampleSpacing (i + j) = .ok b) ∧
      ∀ E : Dense ℚ 2 4,
        (∀ v : ℚ, ∃ E', E.Set i (i + j) v = .ok E') ∧
        fillCell sampleSpacing 4 2 i E j
          = (penalty sampleSpacing 2 i j >>= fun p => E.Set i (i + j) p)) ∧
    ∀ (E : Dense ℚ 2 4) (p : Panic), fillRows sampleSpacing 4 2 E ≠ .error (.panic p)) :=
  ⟨⟨by decide, rfl, by decide⟩,
    fill_loop_in_bounds sampleData sampleSpacing 2 (by decide) rfl (by decide)⟩

/-- C19: for order 1 the spacing values have no influence: for every data of length `n`,
every `lambda` and any two spacing slices of length `n`, whatever their entries, `Smooth`
returns the same, and the same as with nil spacing. -/
theorem Smooth_order_one_spacing (data : List K) (lam : K) (s1 s2 : List K)
    (h1 : s1.length = data.length) (h2 : s2.length = data.length) :
    Smooth data lam 1 (some s1) = Smooth data lam 1 (some s2) ∧
    Smooth data lam 1 (some s2) = Smooth data lam 1 none := by
  constructor
  · exact Smooth_congr data lam 1 _ _
      (createPenaltyMatrix_congr data s1 s2 1 (h1.trans h2.symm) (penalty_order_one s1 s2))
  · refine Smooth_congr data lam 1 _ _
      (createPenaltyMatrix_congr data s2 (List.replicate data.length 1) 1 ?_
        (penalty_order_one s2 _))
    rw [h2, List.length_replicate]

theorem Smooth_order_one_spacing_witness :
    (([7, 0, 5, -2] : List ℚ).length = sampleData.length ∧
      sampleSpacing.length = sampleData.length) ∧
    Smooth sampleData 20 1 (some [7, 0, 5, -2]) = Smooth sampleData 20 1 (some sampleSpacing) ∧
    Smooth sampleData 20 1 (some sampleSpacing) = Smooth sampleData 20 1 none :=
  ⟨⟨rfl, rfl⟩, Smooth_order_one_spacing sampleData 20 [7, 0, 5, -2] sampleSpacing rfl rfl⟩

/-- C8 as stated fails: on two data points with order 1, nil spacing, `lambda1 = 0` and
`lambda2 = 6e15` the first call returns the data and the second returns no output whose
roughness could be compared: the solve reports a near-singular system (condition number
`1.2e16 + 1`, above the tolerance `1e16`). -/
theorem SmoothChecked_roughness_no_output :
    ((1 : Int) ≤ 1 ∧ (1 : Int) < ([1, 2] : List ℚ).length ∧ (0 : ℚ) ≤ 0 ∧
      (0 : ℚ) < 6 * 10 ^ 15) ∧
    SmoothChecked ([1, 2] : List ℚ) 0 1 none = .ok [1, 2] ∧
    SmoothChecked ([1, 2] : List ℚ) (6 * 10 ^ 15) 1 none
      = .error (.error (.solveSystem .nearSingular)) ∧
    ¬ ∃ x2 : List ℚ, SmoothChecked ([1, 2] : List ℚ) (6 * 10 ^ 15) 1 none = .ok x2 := by
  have h0 : SmoothChecked ([1, 2] : List ℚ) 0 1 none = .ok [1, 2] := by
    rw [SmoothChecked_twoPoint 1 2 0 le_rfl, if_neg (by norm_num)]
    exact Smooth_zero _ _ _ (by decide) (by decide) trivial
  have h1 : SmoothChecked ([1, 2] : List ℚ) (6 * 10 ^ 15) 1 none
      = .error (.error (.solveSystem .nearSingular)) := by
    rw [SmoothChecked_twoPoint 1 2 (6 * 10 ^ 15) (by norm_num), if_pos (by norm_num)]
  refine ⟨⟨by decide, by decide, le_rfl, by norm_num⟩, h0, h1, ?_⟩
  rintro ⟨x2, hx2⟩
  rw [h1] at hx2
  cases hx2

/-- C8, amended: with `float64` read as exact reals, for fixed data, order `1 ≤ d < n` and
spacing (absent or of length `n` with positive entries), and `0 ≤ lambda1 < lambda2`:
whenever both calls of `Smooth` return a slice, the roughness `|D x|^2` of the output for
`lambda2` is at most that of the output for `lambda1`, with `D` the penalty matrix of the
call; a call with `lambda ≥ 0` does return a slice when the condition number of
`I + lambda * DᵀD` is at most `1e16`; for unit spacing (absent, or all ones) `|D v|^2` is
the sum of the squared `d`-th differences of `v`. -/
theorem SmoothChecked_roughness_antitone (data : List K) (lam1 lam2 : K) (order : Int)
    (spacing : Option (List K)) (h1 : 1 ≤ order) (h2 : order < data.length)
    (hs : ValidSpacing data.length spacing) (hl1 : 0 ≤ lam1) (hl : lam1 < lam2) :
    ∃ D : Dense K (data.length - order.toNat) data.length,
      createPenaltyMatrix data (effectiveSpacing data.length spacing) order = .ok D ∧
      (∀ x1 x2 : List K, SmoothChecked data lam1 order spacing = .ok x1 →
        SmoothChecked data lam2 order spacing = .ok x2 →
        roughness D (toVec data.length x2) ≤ roughness D (toVec data.length x1)) ∧
      (∀ lam : K, 0 ≤ lam →
        conditionNumber (1 + lam • (D.transpose * D)) ≤ ConditionTolerance →
        ∃ x : List K, SmoothChecked data lam order spacing = .ok x) ∧
      (effectiveSpacing data.length spacing = List.replicate data.length 1 →
        ∀ v : List K, roughness D (toVec data.length v)
          = ∑ i in Finset.range (data.length - order.toNat),
              (differences order.toNat (fun k => v.getD k 0) i) ^ 2) := by
  obtain ⟨D, y1, y2, hD, hy1, hy2, hr, hu⟩ :=
    exact_roughness_antitone data lam1 lam2 order spacing h1 h2 hs hl1 hl
  refine ⟨D, hD, fun x1 x2 hx1 hx2 => ?_,
    fun lam hlam => (SmoothChecked_returns_iff data lam order spacing D hD hlam).2, hu⟩
  have e1 := SmoothChecked_ok_imp data lam1 order spacing x1 hx1
  have e2 := SmoothChecked_ok_imp data lam2 order spacing x2 hx2
  obtain rfl : y1 = x1 := Except.ok.inj (hy1.symm.trans e1)
  obtain rfl : y2 = x2 := Except.ok.inj (hy2.symm.trans e2)
  exact hr

theorem SmoothChecked_roughness_antitone_witness :
    ((1 : Int) ≤ 1 ∧ (1 : Int) < ([1, 2] : List ℚ).length ∧
      ValidSpacing ([1, 2] : List ℚ).length (none : Option (List ℚ)) ∧
      (0 : ℚ) ≤ 0 ∧ (0 : ℚ) < 1) ∧
    SmoothChecked ([1, 2] : List ℚ) 0 1 none = .ok [1, 2] ∧
    SmoothChecked ([1, 2] : List ℚ) 1 1 none = .ok [4 / 3, 5 / 3] ∧
    ∃ D : Dense ℚ 1 2,
      createPenaltyMatrix ([1, 2] : List ℚ) (effectiveSpacing 2 none) 1 = .ok D ∧
      roughness D (toVec 2 [4 / 3, 5 / 3]) ≤ roughness D (toVec 2 [1, 2]) ∧
      ∀ v : List ℚ, roughness D (toVec 2 v)
        = ∑ i in Finset.range 1, (differences 1 (fun k => v.getD k 0) i) ^ 2 :=
  have h0 : SmoothChecked ([1, 2] : List ℚ) 0 1 none = .ok [1, 2] := by
    rw [SmoothChecked_twoPoint 1 2 0 le_rfl, if_neg (by norm_num)]
    exact Smooth_zero _ _ _ (by decide) (by decide) trivial
  have h1 : SmoothChecked ([1, 2] : List ℚ) 1 1 none = .ok [4 / 3, 5 / 3] := by
    rw [SmoothChecked_twoPoint 1 2 1 (by norm_num), if_neg (by norm_num)]
    exact Smooth_two_points
  ⟨⟨by decide, by decide, trivial, le_rfl, by norm_num⟩, h0, h1,
    match SmoothChecked_roughness_antitone ([1, 2] : List ℚ) 0 1 1 none (by decide)
      (by decide) trivial le_rfl (by norm_num) with
    | ⟨D, hD, hr, _, hu⟩ => ⟨D, hD, hr _ _ h0 h1, hu rfl⟩⟩

/-- C10 as stated fails: on the valid input `Smooth([1, 2], 6e15, 1, nil)` with
`lambda ≥ 0` there is no output that could minimise the objective: the solve reports a
near-singular system (condition number `1.2e16 + 1`) and `Smooth` returns an error. -/
theorem SmoothChecked_no_minimiser :
    ((1 : Int) ≤ 1 ∧ (1 : Int) < ([1, 2] : List ℚ).length ∧ (0 : ℚ) ≤ 6 * 10 ^ 15 ∧
      ValidSpacing ([1, 2] : List ℚ).length (none : Option (List ℚ))) ∧
    SmoothChecked ([1, 2] : List ℚ) (6 * 10 ^ 15) 1 none
      = .error (.error (.solveSystem .nearSingular)) ∧
    ∀ x : List ℚ, SmoothChecked ([1, 2] : List ℚ) (6 * 10 ^ 15) 1 none ≠ .ok x := by
  have h1 : SmoothChecked ([1, 2] : List ℚ) (6 * 10 ^ 15) 1 none
      = .error (.error (.solveSystem .nearSingular)) := by
    rw [SmoothChecked_twoPoint 1 2 (6 * 10 ^ 15) (by norm_num), if_pos (by norm_num)]
  refine ⟨⟨by decide, by decide, by norm_num, trivial⟩, h1, fun x hx => ?_⟩
  rw [h1] at hx
  cases hx

/-- C10, amended: with `float64` read as exact reals and `lambda ≥ 0`, every slice `x` that
`Smooth` returns minimises
`Q(z) = sum_i (data[i] - z[i])^2 + lambda * |D z|^2` over all vectors `z` of length `n`,
with `D` the penalty matrix of the call; on a valid input with `d < n` it does return a
slice when the condition number of `I + lambda * DᵀD` is at most `1e16`. -/
theorem SmoothChecked_minimises_objective (data : List K) (lam : K) (order : Int)
    (spacing : Option (List K)) (hlam : 0 ≤ lam) :
    (∀ x : List K, SmoothChecked data lam order spacing = .ok x →
      ∃ D : Dense K (data.length - order.toNat) data.length,
        createPenaltyMatrix data (effectiveSpacing data.length spacing) order = .ok D ∧
        ∀ z : Fin data.length → K,
          objective D lam (toVec data.length data) (toVec data.length x)
            ≤ objective D lam (toVec data.length data) z) ∧
    (1 ≤ order → order < data.length → ValidSpacing data.length spacing →
      ∃ D : Dense K (data.length - order.toNat) data.length,
        createPenaltyMatrix data (effectiveSpacing data.length spacing) order = .ok D ∧
        (conditionNumber (1 + lam • (D.transpose * D)) ≤ ConditionTolerance →
          ∃ x : List K, SmoothChecked data lam order spacing = .ok x)) := by
  refine ⟨fun x hx => (exact_minimises_objective data lam order spacing hlam).1 x
    (SmoothChecked_ok_imp data lam order spacing x hx), fun h1 h2 hs => ?_⟩
  have hD := createPenaltyMatrix_eq data (effectiveSpacing data.length spacing) order h1 h2
    (effectiveSpacing_length _ _ hs) (effectiveSpacing_ne_zero _ _ hs)
  exact ⟨_, hD, (SmoothChecked_returns_iff data lam order spacing _ hD hlam).2⟩

theorem SmoothChecked_minimises_objective_witness :
    ((0 : ℚ) ≤ 1 ∧ SmoothChecked ([1, 2] : List ℚ) 1 1 none = .ok [4 / 3, 5 / 3]) ∧
    ∃ D : Dense ℚ 1 2,
      createPenaltyMatrix ([1, 2] : List ℚ) (effectiveSpacing 2 none) 1 = .ok D ∧
      ∀ z : Fin 2 → ℚ,
        objective D 1 (toVec 2 [1, 2]) (toVec 2 [4 / 3, 5 / 3])
          ≤ objective D 1 (toVec 2 [1, 2]) z :=
  have h1 : SmoothChecked ([1, 2] : List ℚ) 1 1 none = .ok [4 / 3, 5 / 3] := by
    rw [SmoothChecked_twoPoint 1 2 1 (by norm_num), if_neg (by norm_num)]
    exact Smooth_two_points
  ⟨⟨by norm_num, h1⟩,
    (SmoothChecked_minimises_objective ([1, 2] : List ℚ) 1 1 none (by norm_num)).1 _ h1⟩

/-- C16 as stated fails: the spacing `[1, 1.5, 1]` multiplied entry by entry by the non-zero
constant `2^-1074` (the least positive `float64`) is, in `float64`, the slice
`[2^-1074, 2^-1073, 2^-1074]`: the product `1.5 * 2^-1074` is rounded to `2 * 2^-1074`. Both
spacings have length 3 and positive entries, yet the ratio of the first two entries is
`2/3` before and `1/2` after, and for the data `[1, 2, 4]`, `lambda = 1` and order 2 the
output is `[22/43, 114/43, 151/43]` before and `[1/4, 11/4, 13/4]` after (up to the rounding
of the solve). -/
theorem Smooth_spacing_scale_rounds :
    ((2 : ℚ) ^ (-1074 : Int) ≠ 0 ∧
      ValidSpacing ([1, 2, 4] : List ℚ).length (some ([1, 3 / 2, 1] : List ℚ)) ∧
      ValidSpacing ([1, 2, 4] : List ℚ).length
        (some ([2 ^ (-1074 : Int), 2 ^ (-1073 : Int), 2 ^ (-1074 : Int)] : List ℚ))) ∧
    scale64 (2 ^ (-1074 : Int)) [1, 3 / 2, 1]
      = .ok [2 ^ (-1074 : Int), 2 ^ (-1073 : Int), 2 ^ (-1074 : Int)] ∧
    Smooth ([1, 2, 4] : List ℚ) 1 2 (some [1, 3 / 2, 1])
      = .ok [22 / 43, 114 / 43, 151 / 43] ∧
    Smooth ([1, 2, 4] : List ℚ) 1 2
      (some [2 ^ (-1074 : Int), 2 ^ (-1073 : Int), 2 ^ (-1074 : Int)])
      = .ok [1 / 4, 11 / 4, 13 / 4] ∧
    Smooth ([1, 2, 4] : List ℚ) 1 2
      (some [2 ^ (-1074 : Int), 2 ^ (-1073 : Int), 2 ^ (-1074 : Int)])
      ≠ Smooth ([1, 2, 4] : List ℚ) 1 2 (some [1, 3 / 2, 1]) := by
  have hpos : ∀ k : Int, (0 : ℚ) < 2 ^ k := fun k => by positivity
  have hs : ValidSpacing ([1, 2, 4] : List ℚ).length (some ([1, 3 / 2, 1] : List ℚ)) :=
    ⟨rfl, by norm_num⟩
  have hs2 : ValidSpacing ([1, 2, 4] : List ℚ).length
      (some ([2 ^ (-1074 : Int), 2 ^ (-1073 : Int), 2 ^ (-1074 : Int)] : List ℚ)) := by
    refine ⟨rfl, fun v hv => ?_⟩
    simp only [List.mem_cons, List.mem_singleton, List.not_mem_nil, or_false] at hv
    rcases hv with hv | hv | hv <;> rw [hv] <;> exact hpos _
  refine ⟨⟨(hpos _).ne', hs, hs2⟩, scale64_least, Smooth_three_points,
    Smooth_three_points_least, ?_⟩
  rw [Smooth_three_points, Smooth_three_points_least]
  intro hne
  have h := congrArg (fun l : List ℚ => l.getD 0 0) (Except.ok.inj hne)
  norm_num at h

/-- C16, amended: equally spaced data may be passed with nil spacing: for every data,
`lambda`, order and non-zero constant `c`, `Smooth` with the spacing `[c, ..., c]` of length
`n` returns what `Smooth` with nil spacing returns; and when every entry of a spacing slice
is `c` times the entry of another exactly (the products `c * s[i]` not rounded, the spacing
ratios read as exact reals), `Smooth` returns the same for both. Both hold with and without
the check of the solve on the condition number. -/
theorem Smooth_spacing_scale (data : List K) (lam : K) (order : Int) (c : K) (hc : c ≠ 0) :
    (Smooth data lam order (some (List.replicate data.length c)) = Smooth data lam order none ∧
      SmoothChecked data lam order (some (List.replicate data.length c))
        = SmoothChecked data lam order none) ∧
    ∀ s : List K,
      Smooth data lam order (some (s.map (fun v => c * v))) = Smooth data lam order (some s) ∧
      SmoothChecked data lam order (some (s.map (fun v => c * v)))
        = SmoothChecked data lam order (some s) := by
  obtain ⟨hconst, hscale⟩ := createPenaltyMatrix_scale data order c hc
  exact ⟨⟨Smooth_congr data lam order _ _ hconst,
      SmoothChecked_congr data lam order _ _ hconst⟩,
    fun s => ⟨Smooth_congr data lam order _ _ (hscale s),
      SmoothChecked_congr data lam order _ _ (hscale s)⟩⟩

theorem Smooth_spacing_scale_witness :
    (3 : ℚ) ≠ 0 ∧
    (Smooth sampleData 20 2 (some (List.replicate sampleData.length 3))
        = Smooth sampleData 20 2 none ∧
      SmoothChecked sampleData 20 2 (some (List.replicate sampleData.length 3))
        = SmoothChecked sampleData 20 2 none) ∧
    ∀ s : List ℚ,
      Smooth sampleData 20 2 (some (s.map (fun v => 3 * v)))
        = Smooth sampleData 20 2 (some s) ∧
      SmoothChecked sampleData 20 2 (some (s.map (fun v => 3 * v)))
        = SmoothChecked sampleData 20 2 (some s) :=
  ⟨by norm_num, Smooth_spacing_scale sampleData 20 2 3 (by norm_num)⟩

/-- C18 as stated fails: the constant data `[1, 1]` are the values of the polynomial `1`, of
degree `0 = d - 1` for `d = 1`, and `n = 2 > d`, yet `Smooth([1, 1], 6e15, 1, nil)` does not
return them: the solve reports a near-singular system (condition number `1.2e16 + 1`, which
does not depend on the data). -/
theorem SmoothChecked_constant_not_fixed :
    ((1 : Int) ≤ 1 ∧ (1 : Int) < ([1, 1] : List ℚ).length ∧ (0 : ℚ) ≤ 6 * 10 ^ 15 ∧
      ((Polynomial.C 1 : Polynomial ℚ).natDegree : Int) ≤ 1 - 1 ∧
      ∀ i : Nat, i < ([1, 1] : List ℚ).length →
        ([1, 1] : List ℚ).getD i 0 = (Polynomial.C 1 : Polynomial ℚ).eval (i : ℚ)) ∧
    SmoothChecked ([1, 1] : List ℚ) (6 * 10 ^ 15) 1 none
      = .error (.error (.solveSystem .nearSingular)) ∧
    SmoothChecked ([1, 1] : List ℚ) (6 * 10 ^ 15) 1 none ≠ .ok [1, 1] := by
  have h1 : SmoothChecked ([1, 1] : List ℚ) (6 * 10 ^ 15) 1 none
      = .error (.error (.solveSystem .nearSingular)) := by
    rw [SmoothChecked_twoPoint 1 1 (6 * 10 ^ 15) (by norm_num), if_pos (by norm_num)]
  have hp : ((Polynomial.C 1 : Polynomial ℚ).natDegree : Int) ≤ 1 - 1 := by
    rw [Polynomial.natDegree_C]
    decide
  have hdata : ∀ i : Nat, i < ([1, 1] : List ℚ).length →
      ([1, 1] : List ℚ).getD i 0 = (Polynomial.C 1 : Polynomial ℚ).eval (i : ℚ) := by
    intro i hi
    have hi2 : i < 2 := hi
    interval_cases i <;> simp
  refine ⟨⟨by decide, by decide, by norm_num, hp, hdata⟩, h1, ?_⟩
  rw [h1]
  exact fun hne => by cases hne

/-- C18, amended: with `float64` read as exact reals, nil spacing, order `d ≥ 1`, `n > d`
data points and `lambda ≥ 0`, data that are the values `p(0), p(1), ..., p(n-1)` of a
polynomial `p` of degree at most `d - 1` are a fixed point of the smoother wherever it
returns a slice: every slice that `Smooth(data, lambda, d, nil)` returns is `data`, and it
does return `data` when the condition number of `I + lambda * DᵀD` is at most `1e16`. -/
theorem SmoothChecked_polynomial_fixed (data : List K) (lam : K) (d : Int)
    (p : Polynomial K) (h1 : 1 ≤ d) (h2 : d < data.length) (hlam : 0 ≤ lam)
    (hp : (p.natDegree : Int) ≤ d - 1)
    (hdata : ∀ i : Nat, i < data.length → data.getD i 0 = p.eval (i : K)) :
    ∃ D : Dense K (data.length - d.toNat) data.length,
      createPenaltyMatrix data (List.replicate data.length 1) d = .ok D ∧
      (∀ x : List K, SmoothChecked data lam d none = .ok x → x = data) ∧
      (conditionNumber (1 + lam • (D.transpose * D)) ≤ ConditionTolerance →
        SmoothChecked data lam d none = .ok data) := by
  have hD := createPenaltyMatrix_eq data (effectiveSpacing data.length none) d h1 h2
    (effectiveSpacing_length _ none trivial) (effectiveSpacing_ne_zero _ none trivial)
  have hfix := exact_polynomial_fixed data lam d p h1 h2 hlam hp hdata
  refine ⟨_, hD, fun x hx => ?_, fun hc => ?_⟩
  · have e := SmoothChecked_ok_imp data lam d none x hx
    exact (Except.ok.inj (hfix.symm.trans e)).symm
  · rw [SmoothChecked_of_nonneg data lam d none _ hD hlam, if_neg (not_lt.mpr hc), hfix]

theorem SmoothChecked_polynomial_fixed_witness :
    ((1 : Int) ≤ 1 ∧ (1 : Int) < ([5, 5] : List ℚ).length ∧ (0 : ℚ) ≤ 20 ∧
      ((Polynomial.C 5 : Polynomial ℚ).natDegree : Int) ≤ 1 - 1 ∧
      ∀ i : Nat, i < ([5, 5] : List ℚ).length →
        ([5, 5] : List ℚ).getD i 0 = (Polynomial.C 5 : Polynomial ℚ).eval (i : ℚ)) ∧
    SmoothChecked ([5, 5] : List ℚ) 20 1 none = .ok [5, 5] :=
  have hp : ((Polynomial.C 5 : Polynomial ℚ).natDegree : Int) ≤ 1 - 1 := by
    rw [Polynomial.natDegree_C]
    decide
  have hdata : ∀ i : Nat, i < ([5, 5] : List ℚ).length →
      ([5, 5] : List ℚ).getD i 0 = (Polynomial.C 5 : Polynomial ℚ).eval (i : ℚ) := by
    intro i hi
    have hi2 : i < 2 := hi
    interval_cases i <;> simp
  ⟨⟨by decide, by decide, by norm_num, hp, hdata⟩,
    match SmoothChecked_polynomial_fixed ([5, 5] : List ℚ) 20 1 (Polynomial.C 5) (by decide)
      (by decide) (by norm_num) hp hdata with
    | ⟨D, hD, _, h⟩ => by
      have hb := createPenaltyMatrix_eq ([5, 5] : List ℚ) (effectiveSpacing 2 none) 1
        (by decide) (by decide) (effectiveSpacing_length 2 none trivial)
        (effectiveSpacing_ne_zero 2 none trivial)
      obtain rfl := Except.ok.inj (hD.symm.trans hb)
      have hc : conditionNumber (1 + (20 : ℚ) •
          ((bandMatrix (List.replicate 2 (1 : ℚ)) 1 2 1).transpose
            * bandMatrix (List.replicate 2 (1 : ℚ)) 1 2 1)) ≤ ConditionTolerance := by
        rw [twoPoint_conditionNumber (20 : ℚ) (by norm_num)]
        unfold ConditionTolerance
        norm_num
      exact h hc⟩

end Claims

end Wte
